import Mathlib

/-!
# Verification of the DubSub timed-caption pipeline

Shallow embedding of the subtitle (SRT) parser/serializer of
`apps/server/scripts/translate.py`, the timestamp codec and progress
telemetry of `apps/server/scripts/asr.py`, and proofs of the spec's
testable properties against it.

Text is modelled as `List Char` (Python `str`).  Python's `float` values
are modelled as the exact rationals they denote; the one floating-point
operation the code performs (`seconds * 1000`) is modelled by exact
rational multiplication followed by rounding to the 53-bit-significand
grid with ties to even, which is IEEE-754 binary64 semantics for inputs
in the normal range.
-/

namespace DubSub

attribute [local semireducible] Rat.mul Rat.add Rat.sub Rat.inv Rat.ofScientific

/-- Python strings, modelled as lists of characters. -/
abbrev Chars := List Char

/-- The ASCII whitespace characters recognised by Python's `str.strip`,
`str.isspace` and the regex class `\s` (the embedding models ASCII text). -/
def pySpace (c : Char) : Bool :=
  c = ' ' || c = '\t' || c = '\n' || c = '\r' || c = '\x0b' || c = '\x0c'

/-- Python `str.lstrip()`: drop leading whitespace. -/
def pyLStrip (l : Chars) : Chars := l.dropWhile pySpace

/-- Python `str.strip()`: drop leading and trailing whitespace. -/
def pyStrip (l : Chars) : Chars :=
  ((l.dropWhile pySpace).reverse.dropWhile pySpace).reverse

/-- Python `str.isdigit()` restricted to ASCII: nonempty and all
characters are decimal digits. -/
def pyIsDigit (l : Chars) : Bool :=
  !l.isEmpty && l.all (fun c => '0' ≤ c && c ≤ '9')

/-- Python `block.split("\n")`: split at every newline, keeping empty
pieces; the result is always nonempty. -/
def splitNL : Chars → List Chars
  | [] => [[]]
  | c :: rest =>
    if c = '\n' then [] :: splitNL rest
    else
      match splitNL rest with
      | [] => [[c]]
      | b :: bs => (c :: b) :: bs

/-- Python `"\n".join(lines)`. -/
def joinNL : List Chars → Chars
  | [] => []
  | [x] => x
  | x :: rest => x ++ '\n' :: joinNL rest

/-- Split a whitespace run: return the part strictly after the *last*
newline of the list, or `none` if the list contains no newline.  Helper
for the greedy match of the regex `\n\s*\n`. -/
def lastNLSplit : Chars → Option Chars
  | [] => none
  | c :: cs =>
    match lastNLSplit cs with
    | some after => some after
    | none => if c = '\n' then some cs else none

/-- Leftmost greedy match of the regex `\n\s*\n` at the head of the
input: succeeds iff the input starts with a newline and another newline
follows separated only by whitespace; on success returns the remainder
after the matched separator (which, by greediness, extends to the last
newline of the maximal whitespace run). -/
def sepMatch (s : Chars) : Option Chars :=
  match s with
  | c :: rest =>
    if c = '\n' then
      match lastNLSplit (rest.takeWhile pySpace) with
      | some after => some (after ++ rest.dropWhile pySpace)
      | none => none
    else none
  | [] => none

/-- One scanning pass of `re.split(r"\n\s*\n", s)`: at each position try
the separator match; on success emit the accumulated block and continue
after the match.  `fuel` is an upper bound on the number of characters
still to be scanned (the caller passes `s.length + 1`). -/
def splitF : Nat → Chars → Chars → List Chars
  | 0, acc, _ => [acc.reverse]
  | _ + 1, acc, [] => [acc.reverse]
  | fuel + 1, acc, c :: rest =>
    match sepMatch (c :: rest) with
    | some r => acc.reverse :: splitF fuel [] r
    | none => splitF fuel (c :: acc) rest

/-- Python `re.split(r"\n\s*\n", s)`. -/
def reSplitBlank (s : Chars) : List Chars := splitF (s.length + 1) [] s

/-- A parsed subtitle entry: the timestamp line kept verbatim, and the
raw text lines. -/
abbrev Entry := Chars × List Chars

/-- The per-block step of `parse_srt` (translate.py lines 10-18): split
the block into lines, discard it if it has fewer than two lines, skip a
purely numeric leading index line, and return (time line, body lines). -/
def processBlock (block : Chars) : Option Entry :=
  match splitNL block with
  | l0 :: l1 :: rest =>
    if pyIsDigit (pyStrip l0) then some (l1, rest) else some (l0, l1 :: rest)
  | _ => none

/-- Model of `parse_srt` of translate.py on character lists: delete carriage
returns, strip, split on blank-line boundaries, process each block. -/
def parseChars (text : Chars) : List Entry :=
  (reSplitBlank (pyStrip (text.filter (fun c => c ≠ '\r')))).filterMap processBlock

/-- Model of `parse_srt(text)` of translate.py. -/
def parse_srt (text : String) : List Entry := parseChars text.data

/-! ## Decimal rendering (Python `f"{n}"` / `f"{n:02d}"`) -/

/-- The ASCII digit character for `n % 10`. -/
def digitChar (n : Nat) : Char := Char.ofNat (48 + n % 10)

/-- Fuel-driven decimal rendering of a natural number, most significant
digit first; the fuel only bounds recursion depth and `natDigits` always
passes enough. -/
def natDigitsAux : Nat → Nat → Chars → Chars
  | 0, _, acc => acc
  | fuel + 1, n, acc =>
    if n < 10 then digitChar n :: acc
    else natDigitsAux fuel (n / 10) (digitChar (n % 10) :: acc)

/-- Decimal rendering of a natural number (Python `str(n)` for `n ≥ 0`). -/
def natDigits (n : Nat) : Chars := natDigitsAux (n + 1) n []

/-- Python `f"{z:0wd}"`: render a (possibly negative) integer zero-padded
to width `w`, with the sign, if any, before the padding. -/
def intPadZeros (w : Nat) (z : Int) : Chars :=
  if z < 0 then '-' :: (List.replicate (w - 1 - (natDigits (-z).toNat).length) '0'
      ++ natDigits (-z).toNat)
  else List.replicate (w - (natDigits z.toNat).length) '0' ++ natDigits z.toNat

/-! ## Timestamp codec (asr.py `format_time`) -/

/-- Fuel-driven base-2 logarithm on `Nat` (`natLog2F f n = ⌊log₂ n⌋` for
`1 ≤ n < 2^f`); fuel is consumed lazily, one unit per halving. -/
def natLog2F : Nat → Nat → Nat
  | 0, _ => 0
  | fuel + 1, n => if n ≤ 1 then 0 else natLog2F fuel (n / 2) + 1

/-- Floor base-2 logarithm, valid for `n ≥ 1`. -/
def natLog2 (n : Nat) : Nat := natLog2F (n + 1) n

/-- The rational `2^n`, by repeated core-`Rat` multiplication (the
typeclass power and the numeric casts into `ℚ` do not reduce inside the
kernel, so the powers of two are spelled out directly). -/
def pow2N : Nat → ℚ
  | 0 => 1
  | n + 1 => 2 * pow2N n

/-- The rational `2^e` for an integer `e`. -/
def pow2Z (e : ℤ) : ℚ :=
  if 0 ≤ e then pow2N e.toNat else 1 / pow2N (-e).toNat

/-- The floor of a rational, on the numerator and denominator (equal to
`⌊q⌋`, see `ratFloor_eq`). -/
def ratFloor (q : ℚ) : ℤ := q.num / (q.den : ℤ)

/-- The binade exponent of a positive rational: the unique `e` with
`2^e ≤ q < 2^(e+1)` (returns `0` on nonpositive input). -/
def expOf (q : ℚ) : ℤ :=
  if q ≤ 0 then 0
  else
    let e0 : ℤ := (natLog2 q.num.toNat : ℤ) - (natLog2 q.den : ℤ)
    if pow2Z e0 ≤ q then e0 else e0 - 1

/-- Python `round(q)` on the exact value: round to the nearest integer,
ties to even (banker's rounding).  With `f = ⌊q⌋` and `r = q - f`, the
comparison of `r` against `1/2` is done as `2·(num − f·den)` against
`den`, which keeps the function kernel-computable. -/
def pyRound (q : ℚ) : ℤ :=
  let f := ratFloor q
  let r2 := 2 * (q.num - f * (q.den : ℤ))
  if r2 < (q.den : ℤ) then f
  else if (q.den : ℤ) < r2 then f + 1
  else if f % 2 = 0 then f else f + 1

/-- IEEE-754 binary64 multiplication of a double (given as the exact
rational it denotes) by `1000`: the exact product rounded to the 53-bit
significand grid of its binade, ties to even.  (Overflow and subnormal
inputs are outside the range exercised here.) -/
def dmul1000 (x : ℚ) : ℚ :=
  if x = 0 then 0
  else
    let y := 1000 * x
    let a := if y < 0 then -y else y
    let u : ℚ := pow2Z (expOf a - 52)
    mkRat (pyRound (y / u)) 1 * u

/-- asr.py lines 7-11: `millis = int(round(seconds * 1000))` and its
decomposition; Python `//` and `%` are floor division and modulo. -/
def formatMillis (millis : ℤ) : Chars :=
  let hours := millis.fdiv 3600000
  let minutes := (millis.fmod 3600000).fdiv 60000
  let secs := (millis.fmod 60000).fdiv 1000
  let ms := millis.fmod 1000
  intPadZeros 2 hours ++ ':' :: intPadZeros 2 minutes ++ ':' :: intPadZeros 2 secs
    ++ ',' :: intPadZeros 3 ms

/-- Model of `format_time(seconds)` of asr.py on character lists; the argument is
the exact rational value of the `float` passed in. -/
def formatTimeChars (seconds : ℚ) : Chars := formatMillis (pyRound (dmul1000 seconds))

/-- Model of `format_time(seconds)` of asr.py. -/
def format_time (seconds : ℚ) : String := ⟨formatTimeChars seconds⟩

/-! ## Serializers -/

/-- One block of `write_srt` in translate.py (lines 24-27): the index line,
the timestamp line, then `"\n".join(body_lines).strip()` and the two newlines that
end every block, after the index line and the timestamp line: one block
of `write_srt` in translate.py (lines 24-27). -/
def renderEntry (i : Nat) (e : Entry) : Chars :=
  natDigits i ++ '\n' :: e.1 ++ '\n' :: (pyStrip (joinNL e.2) ++ ['\n', '\n'])

/-- Model of Python `enumerate(entries, i)`. -/
def enumFrom (i : Nat) : List α → List (Nat × α)
  | [] => []
  | x :: rest => (i, x) :: enumFrom (i + 1) rest

/-- Model of `write_srt(entries, path)` of translate.py: the full text
written to the file. -/
def writeChars (entries : List Entry) : Chars :=
  ((enumFrom 1 entries).map fun p => renderEntry p.1 p.2).flatten

/-- Model of `write_srt` of translate.py, as a string. -/
def write_srt (entries : List Entry) : String := ⟨writeChars entries⟩

/-- A recognized speech segment as consumed by asr.py: `start`/`end`
times (exact values of the floats) and raw text.  `stop` models the
Python attribute `end`, which is a Lean keyword. -/
structure Seg where
  start : ℚ
  stop : ℚ
  text : Chars

/-- The timestamp line `f"{format_time(seg.start)} --> {format_time(seg.end)}"`. -/
def timeLine (s : Seg) : Chars :=
  formatTimeChars s.start ++ ' ' :: '-' :: '-' :: '>' :: ' ' :: formatTimeChars s.stop

/-- Model of one block of `write_srt` in asr.py (lines 17-20): index, timestamp
range, `seg.text.strip()`, blank line. -/
def asrRender (i : Nat) (s : Seg) : Chars :=
  natDigits i ++ '\n' :: timeLine s ++ '\n' :: (pyStrip s.text ++ ['\n', '\n'])

/-- Model of `write_srt(segments, path)` of asr.py: the full text written
to the file. -/
def asrWriteChars (segs : List Seg) : Chars :=
  ((enumFrom 1 segs).map fun p => asrRender p.1 p.2).flatten

/-- Model of `write_srt` of asr.py, as a string. -/
def asr_write_srt (segs : List Seg) : String := ⟨asrWriteChars segs⟩

/-! ## Reparse-translate pipeline (translate.py `main`, lines 47-59) -/

/-- The inner loop over one entry's text lines: strip the line, keep an
empty result as the empty string, otherwise call the translator. -/
def translateBody (tr : Chars → Chars) (body : List Chars) : List Chars :=
  body.map fun line => let l := pyStrip line; if l = [] then [] else tr l

/-- The loop over parsed entries: keep the timestamp line, replace the
body by its translation. -/
def translateEntries (tr : Chars → Chars) : List Entry → List Entry
  | [] => []
  | (t, body) :: rest => (t, translateBody tr body) :: translateEntries tr rest

/-- Instrumented `translateBody`: additionally returns, in order, the
exact list of arguments passed to the translator capability. -/
def translateBodyT (tr : Chars → Chars) : List Chars → List Chars × List Chars
  | [] => ([], [])
  | line :: rest =>
    let l := pyStrip line
    let p := translateBodyT tr rest
    if l = [] then ([] :: p.1, p.2) else (tr l :: p.1, l :: p.2)

/-- Instrumented `translateEntries`: also returns the concatenated list
of translator invocations, in file order. -/
def translateEntriesT (tr : Chars → Chars) : List Entry → List Entry × List Chars
  | [] => ([], [])
  | (t, body) :: rest =>
    let b := translateBodyT tr body
    let p := translateEntriesT tr rest
    ((t, b.1) :: p.1, b.2 ++ p.2)

/-! ## Progress telemetry (asr.py `main`, lines 39-43) -/

/-- The per-segment telemetry step: when the known total duration is
positive, emit `(ratio, position, total, speed)` with
`ratio = clamp(end/total, 0, 1)`, `elapsed = max(now - start_time, 0.001)`
and `speed = end / elapsed`; otherwise emit nothing. -/
def progressSample (total now startTime segEnd : ℚ) : Option (ℚ × ℚ × ℚ × ℚ) :=
  if 0 < total then
    let ratio := min (max (segEnd / total) 0) 1
    let elapsed := max (now - startTime) (1/1000)
    some (ratio, segEnd, total, segEnd / elapsed)
  else none

/-! ## The asr.py serializer output, decomposed into cores and separators -/

/-- The "core" of one serialized block: everything except the trailing
whitespace; when the stripped text is empty the core ends with the
timestamp line. -/
def segCore (i : Nat) (s : Seg) : Chars :=
  natDigits i ++ '\n' :: (timeLine s ++
    (if pyStrip s.text = [] then [] else '\n' :: pyStrip s.text))

/-- The whitespace run separating one block core from the next: the blank
line, plus the newline of the empty text line when the stripped text is
empty. -/
def segSep (s : Seg) : Chars :=
  if pyStrip s.text = [] then ['\n', '\n', '\n'] else ['\n', '\n']

/-- The entry that the parser recovers from one serialized segment. -/
def segEntry (s : Seg) : Entry :=
  (timeLine s, if pyStrip s.text = [] then [] else [pyStrip s.text])

/-- The serialized output of an enumerated segment list, with the
trailing whitespace of the final block removed. -/
def coreStream : List (Nat × Seg) → Chars
  | [] => []
  | [p] => segCore p.1 p.2
  | p :: q :: rest => segCore p.1 p.2 ++ segSep p.2 ++ coreStream (q :: rest)

/-- Scanning safely passes over a chunk at the head of the stream none of
whose nonempty suffixes starts a separator match. -/
def CleanFor (b s : Chars) : Prop :=
  ∀ t : Chars, t ≠ [] → t <:+ b → sepMatch (t ++ s) = none

/-- The list contains two adjacent newline characters. -/
def hasNN (l : Chars) : Prop := ∃ l1 l2, l = l1 ++ '\n' :: '\n' :: l2



/-! ## Concrete binary64 values and the spec-side codec -/

/-- The IEEE-754 binary64 value of the Python literal `3661.2005`:
the nearest double to `36612005/10000` is `4025532521369305 / 2^40`. -/
def double3661_2005 : ℚ := 4025532521369305 / pow2Z 40

/-- The IEEE-754 binary64 value of the Python literal `0.0005`:
the nearest double to `1/2000` is `1152921504606847 / 2^61`. -/
def double0_0005 : ℚ := 1152921504606847 / pow2Z 61

/-- Modelled from the spec for comparison with the code (this is the
spec's described rounding, not the code's): "round to nearest
millisecond (half-up)", i.e. `⌊q·1000 + 1/2⌋` on the exact value. -/
def specHalfUpMillis (q : ℚ) : ℤ := ratFloor (q * 1000 + 1/2)

/-- Spec-side encode: half-up millisecond rounding followed by the same
field decomposition and formatting as the code. -/
def specHalfUpEncode (q : ℚ) : Chars := formatMillis (specHalfUpMillis q)

/-! ## Lemmas: `pyStrip` -/

theorem dropWhile_head_false {p : Char → Bool} :
    ∀ {l t : Chars} {c : Char}, l.dropWhile p = c :: t → p c = false := by
  intro l
  induction l with
  | nil => intro t c h; simp at h
  | cons a l ih =>
    intro t c h
    by_cases ha : p a
    · rw [List.dropWhile_cons_of_pos ha] at h
      exact ih h
    · rw [List.dropWhile_cons_of_neg ha] at h
      cases h
      simpa using ha

theorem pyStrip_nil : pyStrip [] = [] := rfl

theorem mem_pyStrip {c : Char} {l : Chars} (h : c ∈ pyStrip l) : c ∈ l := by
  unfold pyStrip at h
  rw [List.mem_reverse] at h
  have h1 := ((l.dropWhile pySpace).reverse.dropWhile_sublist pySpace).mem h
  rw [List.mem_reverse] at h1
  exact (l.dropWhile_sublist pySpace).mem h1

theorem pyStrip_prefix (l : Chars) : pyStrip l <+: l.dropWhile pySpace := by
  obtain ⟨t, ht⟩ := (l.dropWhile pySpace).reverse.dropWhile_suffix pySpace
  refine ⟨t.reverse, ?_⟩
  unfold pyStrip
  rw [← List.reverse_append, ht, List.reverse_reverse]

theorem pyStrip_head_false {l t : Chars} {c : Char}
    (h : pyStrip l = c :: t) : pySpace c = false := by
  obtain ⟨rest, hrest⟩ := pyStrip_prefix l
  rw [h] at hrest
  exact dropWhile_head_false (t := t ++ rest) (by rw [← hrest]; rfl)

theorem pyStrip_last_false {l ys : Chars} {d : Char}
    (h : pyStrip l = ys ++ [d]) : pySpace d = false := by
  have h2 : (l.dropWhile pySpace).reverse.dropWhile pySpace = d :: ys.reverse := by
    have := congrArg List.reverse h
    rw [pyStrip, List.reverse_reverse] at this
    rw [this, List.reverse_append]
    rfl
  exact dropWhile_head_false h2

theorem pyStrip_eq_self {l : Chars}
    (h1 : ∀ c t, l = c :: t → ¬ pySpace c)
    (h2 : ∀ ys d, l = ys ++ [d] → ¬ pySpace d) : pyStrip l = l := by
  cases hl : l with
  | nil => rfl
  | cons c t =>
    have hc : ¬ pySpace c := h1 c t hl
    have hne : (c :: t).reverse ≠ [] := by simp
    obtain ⟨d, u, hdu⟩ := List.exists_cons_of_ne_nil hne
    have hlast : l = u.reverse ++ [d] := by
      rw [hl, ← List.reverse_reverse (c :: t), hdu]
      simp
    have hd : ¬ pySpace d := h2 u.reverse d hlast
    unfold pyStrip
    rw [List.dropWhile_cons_of_neg hc, hdu, List.dropWhile_cons_of_neg hd, ← hdu,
      List.reverse_reverse]

theorem pyStrip_of_forall_not {l : Chars} (h : ∀ c ∈ l, ¬ pySpace c) : pyStrip l = l :=
  pyStrip_eq_self
    (fun c t hl => h c (by rw [hl]; exact List.mem_cons_self c t))
    (fun ys d hl => h d (by rw [hl]; simp))

theorem pyStrip_append_ws {x w : Chars} (h : ∀ c ∈ w, pySpace c) :
    pyStrip (x ++ w) = pyStrip x := by
  unfold pyStrip
  rw [List.dropWhile_append]
  by_cases hx : (x.dropWhile pySpace).isEmpty
  · have hx' : x.dropWhile pySpace = [] := by simpa [List.isEmpty_iff] using hx
    have hw : w.dropWhile pySpace = [] := List.dropWhile_eq_nil_iff.2 fun c hc => h c hc
    simp [hx, hx', hw]
  · rw [if_neg hx, List.reverse_append]
    rw [List.dropWhile_append_of_pos (by simpa using fun c hc => h c (List.mem_reverse.1 hc))]

theorem pyStrip_idem (l : Chars) : pyStrip (pyStrip l) = pyStrip l :=
  pyStrip_eq_self
    (fun c t hl => by simpa using pyStrip_head_false hl)
    (fun ys d hl => by simpa using pyStrip_last_false hl)

/-! ## Lemmas: `splitNL` and `joinNL` -/

theorem splitNL_ne_nil (l : Chars) : splitNL l ≠ [] := by
  cases l with
  | nil => simp [splitNL]
  | cons c rest =>
    unfold splitNL
    by_cases h : c = '\n'
    · simp [h]
    · simp only [if_neg h]
      cases splitNL rest <;> simp

theorem splitNL_cons_nl (rest : Chars) : splitNL ('\n' :: rest) = [] :: splitNL rest := by
  simp [splitNL]

theorem splitNL_cons_other {c : Char} (h : c ≠ '\n') (rest : Chars) :
    splitNL (c :: rest) =
      (c :: (splitNL rest).headI) :: (splitNL rest).tail := by
  cases hr : splitNL rest with
  | nil => exact absurd hr (splitNL_ne_nil rest)
  | cons b bs =>
    conv_lhs => rw [splitNL]
    rw [if_neg h, hr]
    simp [List.headI]

theorem splitNL_append_cons {x : Chars} (h : '\n' ∉ x) (y : Chars) :
    splitNL (x ++ '\n' :: y) = x :: splitNL y := by
  induction x with
  | nil => simp [splitNL_cons_nl]
  | cons c t ih =>
    have hc : c ≠ '\n' := fun hcc => h (hcc ▸ List.mem_cons_self c t)
    have ht : '\n' ∉ t := fun htt => h (List.mem_cons_of_mem c htt)
    rw [List.cons_append, splitNL_cons_other hc, ih ht]
    simp [List.headI]

theorem splitNL_of_no_nl {x : Chars} (h : '\n' ∉ x) : splitNL x = [x] := by
  induction x with
  | nil => rfl
  | cons c t ih =>
    have hc : c ≠ '\n' := fun hcc => h (hcc ▸ List.mem_cons_self c t)
    have ht : '\n' ∉ t := fun htt => h (List.mem_cons_of_mem c htt)
    rw [splitNL_cons_other hc, ih ht]
    simp [List.headI]

theorem splitNL_joinNL : ∀ {ls : List Chars}, (∀ l ∈ ls, '\n' ∉ l) → ls ≠ [] →
    splitNL (joinNL ls) = ls := by
  intro ls
  induction ls with
  | nil => intro _ h; exact absurd rfl h
  | cons x t ih =>
    intro hnl _
    cases t with
    | nil => exact splitNL_of_no_nl (hnl x (List.mem_cons_self x []))
    | cons y t' =>
      have hj : joinNL (x :: y :: t') = x ++ '\n' :: joinNL (y :: t') := rfl
      rw [hj, splitNL_append_cons (hnl x (List.mem_cons_self x _)),
        ih (fun l hl => hnl l (List.mem_cons_of_mem x hl)) (by simp)]

theorem processBlock_eq_of_splitNL {block l0 l1 : Chars} {rest : List Chars}
    (h : splitNL block = l0 :: l1 :: rest) :
    processBlock block
      = if pyIsDigit (pyStrip l0) then some (l1, rest) else some (l0, l1 :: rest) := by
  unfold processBlock
  rw [h]

theorem joinNL_single (x : Chars) : joinNL [x] = x := rfl

theorem joinNL_nil : joinNL [] = ([] : Chars) := rfl

/-! ## Lemmas: `sepMatch` -/

theorem sepMatch_cons_of_ne {c : Char} (h : c ≠ '\n') (rest : Chars) :
    sepMatch (c :: rest) = none := by
  simp [sepMatch, h]

theorem sepMatch_nil : sepMatch [] = none := rfl

theorem sepMatch_nl_nonspace {c : Char} (h : ¬ pySpace c) (x : Chars) :
    sepMatch ('\n' :: c :: x) = none := by
  have htw : (c :: x).takeWhile pySpace = [] := List.takeWhile_cons_of_neg h
  simp [sepMatch, htw, lastNLSplit]

theorem sepMatch_nl_nil : sepMatch ['\n'] = none := by
  simp [sepMatch, lastNLSplit]

/-- A newline followed by whitespace that contains no further newline
never starts a separator match. -/
theorem sepMatch_none_of_no_nl_run {rest : Chars}
    (h : '\n' ∉ rest.takeWhile pySpace) : sepMatch ('\n' :: rest) = none := by
  have : ∀ w : Chars, '\n' ∉ w → lastNLSplit w = none := by
    intro w
    induction w with
    | nil => intro _; rfl
    | cons c t ih =>
      intro hw
      have hc : c ≠ '\n' := fun hcc => hw (hcc ▸ List.mem_cons_self c t)
      have ht : '\n' ∉ t := fun htt => hw (List.mem_cons_of_mem c htt)
      unfold lastNLSplit
      rw [ih ht]
      simp [hc]
  simp [sepMatch, this _ h]

theorem sepMatch_sep2 {x : Chars} (hx : ∀ c t, x = c :: t → ¬ pySpace c) :
    sepMatch ('\n' :: '\n' :: x) = some x := by
  cases x with
  | nil => decide
  | cons c t =>
    have hc : ¬ pySpace c := hx c t rfl
    have htw : ('\n' :: c :: t).takeWhile pySpace = ['\n'] := by
      rw [List.takeWhile_cons_of_pos (by decide), List.takeWhile_cons_of_neg hc]
    have hdw : ('\n' :: c :: t).dropWhile pySpace = c :: t := by
      rw [List.dropWhile_cons_of_pos (by decide), List.dropWhile_cons_of_neg hc]
    show (match lastNLSplit (('\n' :: c :: t).takeWhile pySpace) with
      | some after => some (after ++ ('\n' :: c :: t).dropWhile pySpace)
      | none => none) = some (c :: t)
    rw [htw, hdw]
    rfl

theorem sepMatch_sep3 {x : Chars} (hx : ∀ c t, x = c :: t → ¬ pySpace c) :
    sepMatch ('\n' :: '\n' :: '\n' :: x) = some x := by
  cases x with
  | nil => decide
  | cons c t =>
    have hc : ¬ pySpace c := hx c t rfl
    have htw : ('\n' :: '\n' :: c :: t).takeWhile pySpace = ['\n', '\n'] := by
      rw [List.takeWhile_cons_of_pos (by decide),
        List.takeWhile_cons_of_pos (by decide), List.takeWhile_cons_of_neg hc]
    have hdw : ('\n' :: '\n' :: c :: t).dropWhile pySpace = c :: t := by
      rw [List.dropWhile_cons_of_pos (by decide),
        List.dropWhile_cons_of_pos (by decide), List.dropWhile_cons_of_neg hc]
    show (match lastNLSplit (('\n' :: '\n' :: c :: t).takeWhile pySpace) with
      | some after => some (after ++ ('\n' :: '\n' :: c :: t).dropWhile pySpace)
      | none => none) = some (c :: t)
    rw [htw, hdw]
    rfl

theorem lastNLSplit_length {w after : Chars} (h : lastNLSplit w = some after) :
    after.length < w.length := by
  induction w generalizing after with
  | nil => simp [lastNLSplit] at h
  | cons c t ih =>
    unfold lastNLSplit at h
    cases ht : lastNLSplit t with
    | some a =>
      rw [ht] at h
      cases h
      exact Nat.lt_succ_of_lt (ih ht)
    | none =>
      rw [ht] at h
      by_cases hc : c = '\n'
      · simp [hc] at h
        cases h
        exact Nat.lt_succ_self _
      · simp [hc] at h

theorem sepMatch_length {s r : Chars} (h : sepMatch s = some r) : r.length < s.length := by
  cases s with
  | nil => simp [sepMatch] at h
  | cons c rest =>
    have hdef : sepMatch (c :: rest) = if c = '\n' then
        (match lastNLSplit (rest.takeWhile pySpace) with
         | some after => some (after ++ rest.dropWhile pySpace)
         | none => none) else none := rfl
    rw [hdef] at h
    by_cases hc : c = '\n'
    · rw [if_pos hc] at h
      cases hw : lastNLSplit (rest.takeWhile pySpace) with
      | none => rw [hw] at h; cases h
      | some after =>
        rw [hw] at h
        cases h
        have h1 := lastNLSplit_length hw
        have h2 : (rest.takeWhile pySpace).length + (rest.dropWhile pySpace).length
            = rest.length := by
          rw [← List.length_append, List.takeWhile_append_dropWhile]
        simp only [List.length_append, List.length_cons]
        omega
    · rw [if_neg hc] at h; cases h

/-! ## Lemmas: the scanner `splitF` -/

theorem splitF_zero (acc s : Chars) : splitF 0 acc s = [acc.reverse] := rfl

theorem splitF_nil (f : Nat) (acc : Chars) : splitF (f + 1) acc [] = [acc.reverse] := rfl

theorem splitF_cons_sep {c : Char} {rest r : Chars} (f : Nat) (acc : Chars)
    (h : sepMatch (c :: rest) = some r) :
    splitF (f + 1) acc (c :: rest) = acc.reverse :: splitF f [] r := by
  have hdef : splitF (f + 1) acc (c :: rest) =
      match sepMatch (c :: rest) with
      | some r => acc.reverse :: splitF f [] r
      | none => splitF f (c :: acc) rest := rfl
  rw [hdef, h]

theorem splitF_cons_nosep {c : Char} {rest : Chars} (f : Nat) (acc : Chars)
    (h : sepMatch (c :: rest) = none) :
    splitF (f + 1) acc (c :: rest) = splitF f (c :: acc) rest := by
  have hdef : splitF (f + 1) acc (c :: rest) =
      match sepMatch (c :: rest) with
      | some r => acc.reverse :: splitF f [] r
      | none => splitF f (c :: acc) rest := rfl
  rw [hdef, h]

theorem splitF_congr_fuel :
    ∀ (f g : Nat) (acc s : Chars), s.length < f → s.length < g →
      splitF f acc s = splitF g acc s := by
  intro f
  induction f with
  | zero => intro g acc s hf _; omega
  | succ f ihf =>
    intro g acc s hf hg
    cases g with
    | zero => omega
    | succ g =>
      cases s with
      | nil => rfl
      | cons c rest =>
        simp only [List.length_cons] at hf hg
        cases hsep : sepMatch (c :: rest) with
        | some r =>
          have hr := sepMatch_length hsep
          simp only [List.length_cons] at hr
          rw [splitF_cons_sep f acc hsep, splitF_cons_sep g acc hsep,
            ihf g [] r (by omega) (by omega)]
        | none =>
          rw [splitF_cons_nosep f acc hsep, splitF_cons_nosep g acc hsep]
          exact ihf g (c :: acc) rest (by omega) (by omega)

theorem cleanFor_nil (s : Chars) : CleanFor [] s := by
  intro t ht hsuf
  rw [List.suffix_nil] at hsuf
  exact absurd hsuf ht

theorem cleanFor_of_suffix {b b' s : Chars} (h : CleanFor b s) (hsub : b' <:+ b) :
    CleanFor b' s := fun t ht hsuf => h t ht (hsuf.trans hsub)

theorem splitF_chunk :
    ∀ (b : Chars) (g : Nat) (acc s : Chars), CleanFor b s →
      splitF (b.length + g) acc (b ++ s) = splitF g (b.reverse ++ acc) s := by
  intro b
  induction b with
  | nil => intro g acc s _; simp
  | cons c t ih =>
    intro g acc s hclean
    have hsm : sepMatch (c :: t ++ s) = none :=
      hclean (c :: t) (by simp) (List.suffix_refl _)
    have : (c :: t).length + g = (t.length + g) + 1 := by simp; omega
    rw [this, List.cons_append, splitF_cons_nosep _ acc (by simpa using hsm)]
    rw [ih g (c :: acc) s (cleanFor_of_suffix hclean (List.suffix_cons c t))]
    simp

/-! ## Lemmas: decimal rendering -/

theorem natDigitsAux_succ (f n : Nat) (acc : Chars) :
    natDigitsAux (f + 1) n acc =
      if n < 10 then digitChar n :: acc
      else natDigitsAux f (n / 10) (digitChar (n % 10) :: acc) := rfl

theorem natDigitsAux_append :
    ∀ (f n : Nat) (acc : Chars), natDigitsAux f n acc = natDigitsAux f n [] ++ acc := by
  intro f
  induction f with
  | zero => intro n acc; rfl
  | succ f ih =>
    intro n acc
    unfold natDigitsAux
    by_cases h : n < 10
    · simp [h]
    · rw [if_neg h, if_neg h, ih (n / 10) (digitChar (n % 10) :: acc),
        ih (n / 10) [digitChar (n % 10)]]
      simp

theorem natDigitsAux_congr :
    ∀ (n f g : Nat) (acc : Chars), n < f → n < g →
      natDigitsAux f n acc = natDigitsAux g n acc := by
  intro n
  induction n using Nat.strong_induction_on with
  | _ n ih =>
    intro f g acc hf hg
    cases f with
    | zero => omega
    | succ f =>
      cases g with
      | zero => omega
      | succ g =>
        unfold natDigitsAux
        by_cases h : n < 10
        · simp [h]
        · rw [if_neg h, if_neg h]
          have hdiv : n / 10 < n := Nat.div_lt_self (by omega) (by omega)
          exact ih (n / 10) hdiv f g _ (by omega) (by omega)

theorem natDigits_eq (n : Nat) :
    natDigits n = if n < 10 then [digitChar n]
      else natDigits (n / 10) ++ [digitChar (n % 10)] := by
  by_cases h : n < 10
  · rw [if_pos h]
    show natDigitsAux (n + 1) n [] = [digitChar n]
    rw [natDigitsAux_succ, if_pos h]
  · rw [if_neg h]
    show natDigitsAux (n + 1) n [] = natDigits (n / 10) ++ [digitChar (n % 10)]
    rw [natDigitsAux_succ, if_neg h, natDigitsAux_append,
      natDigitsAux_congr (n / 10) n (n / 10 + 1) []
        (Nat.div_lt_self (by omega) (by omega)) (Nat.lt_succ_self _)]
    rfl

theorem digitChar_bounds (n : Nat) : '0' ≤ digitChar n ∧ digitChar n ≤ '9' := by
  have h : n % 10 < 10 := Nat.mod_lt n (by omega)
  unfold digitChar
  interval_cases hm : (n % 10) <;> simp_all

theorem digit_not_space {c : Char} (h1 : '0' ≤ c) (h2 : c ≤ '9') :
    ¬ pySpace c ∧ c ≠ '\n' ∧ c ≠ '\r' := by
  refine ⟨?_, ?_, ?_⟩
  · intro hsp
    simp only [pySpace, Bool.or_eq_true, decide_eq_true_eq] at hsp
    rcases hsp with ((((h | h) | h) | h) | h) | h <;> subst h <;>
      exact absurd h1 (by decide)
  · intro h; subst h; exact absurd h1 (by decide)
  · intro h; subst h; exact absurd h1 (by decide)

theorem natDigits_all_digit (n : Nat) : ∀ c ∈ natDigits n, '0' ≤ c ∧ c ≤ '9' := by
  induction n using Nat.strong_induction_on with
  | _ n ih =>
    intro c hc
    rw [natDigits_eq] at hc
    by_cases h : n < 10
    · rw [if_pos h] at hc
      simp at hc
      subst hc
      exact digitChar_bounds n
    · rw [if_neg h] at hc
      rw [List.mem_append] at hc
      rcases hc with hc | hc
      · exact ih (n / 10) (Nat.div_lt_self (by omega) (by omega)) c hc
      · simp at hc
        subst hc
        exact digitChar_bounds (n % 10)

theorem natDigits_ne_nil (n : Nat) : natDigits n ≠ [] := by
  rw [natDigits_eq]
  by_cases h : n < 10 <;> simp [h]

theorem natDigits_concat (n : Nat) :
    ∃ ys d, natDigits n = ys ++ [d] ∧ '0' ≤ d ∧ d ≤ '9' := by
  rw [natDigits_eq]
  by_cases h : n < 10
  · exact ⟨[], digitChar n, by simp [h], digitChar_bounds n⟩
  · exact ⟨natDigits (n / 10), digitChar (n % 10), by simp [h], digitChar_bounds (n % 10)⟩

theorem natDigits_not_space (n : Nat) : ∀ c ∈ natDigits n, ¬ pySpace c := fun c hc =>
  (digit_not_space (natDigits_all_digit n c hc).1 (natDigits_all_digit n c hc).2).1

theorem natDigits_no_nl (n : Nat) : '\n' ∉ natDigits n := fun h =>
  (digit_not_space (natDigits_all_digit n _ h).1 (natDigits_all_digit n _ h).2).2.1 rfl

theorem pyIsDigit_natDigits (n : Nat) : pyIsDigit (natDigits n) = true := by
  unfold pyIsDigit
  rw [Bool.and_eq_true]
  constructor
  · simpa [List.isEmpty_iff] using natDigits_ne_nil n
  · rw [List.all_eq_true]
    intro c hc
    have := natDigits_all_digit n c hc
    simp [this.1, this.2]

theorem pyStrip_natDigits (n : Nat) : pyStrip (natDigits n) = natDigits n :=
  pyStrip_of_forall_not (natDigits_not_space n)

theorem intPadZeros_chars (w : Nat) (z : Int) :
    ∀ c ∈ intPadZeros w z, ¬ pySpace c ∧ c ≠ '\n' ∧ c ≠ '\r' := by
  intro c hc
  unfold intPadZeros at hc
  by_cases hz : z < 0
  · rw [if_pos hz, List.mem_cons] at hc
    rcases hc with rfl | hc
    · exact ⟨by decide, by decide, by decide⟩
    · rw [List.mem_append] at hc
      rcases hc with hc | hc
      · rw [List.eq_of_mem_replicate hc]
        exact ⟨by decide, by decide, by decide⟩
      · have := natDigits_all_digit _ c hc
        exact digit_not_space this.1 this.2
  · rw [if_neg hz, List.mem_append] at hc
    rcases hc with hc | hc
    · rw [List.eq_of_mem_replicate hc]
      exact ⟨by decide, by decide, by decide⟩
    · have := natDigits_all_digit _ c hc
      exact digit_not_space this.1 this.2

theorem intPadZeros_ne_nil (w : Nat) (z : Int) : intPadZeros w z ≠ [] := by
  unfold intPadZeros
  by_cases hz : z < 0
  · simp [hz]
  · simp [hz, natDigits_ne_nil]

theorem intPadZeros_concat (w : Nat) (z : Int) :
    ∃ ys d, intPadZeros w z = ys ++ [d] ∧ '0' ≤ d ∧ d ≤ '9' := by
  obtain ⟨ys, d, hy, hd1, hd2⟩ := natDigits_concat (if z < 0 then (-z).toNat else z.toNat)
  unfold intPadZeros
  by_cases hz : z < 0
  · rw [if_pos hz] at hy ⊢
    refine ⟨'-' :: (List.replicate (w - 1 - (natDigits (-z).toNat).length) '0' ++ ys), d,
      ?_, hd1, hd2⟩
    rw [hy]
    simp
  · rw [if_neg hz] at hy ⊢
    refine ⟨List.replicate (w - (natDigits z.toNat).length) '0' ++ ys, d, ?_, hd1, hd2⟩
    rw [hy]
    simp

/-! ## Lemmas: the timestamp text -/

theorem formatMillis_chars (m : Int) :
    ∀ c ∈ formatMillis m, ¬ pySpace c ∧ c ≠ '\n' ∧ c ≠ '\r' := by
  intro c hc
  unfold formatMillis at hc
  simp only [List.mem_append, List.mem_cons] at hc
  rcases hc with ((hc | hc) | hc) | hc
  · exact intPadZeros_chars _ _ c hc
  · rcases hc with hc | hc
    · subst hc; exact ⟨by decide, by decide, by decide⟩
    · exact intPadZeros_chars _ _ c hc
  · rcases hc with hc | hc
    · subst hc; exact ⟨by decide, by decide, by decide⟩
    · exact intPadZeros_chars _ _ c hc
  · rcases hc with hc | hc
    · subst hc; exact ⟨by decide, by decide, by decide⟩
    · exact intPadZeros_chars _ _ c hc

theorem formatTimeChars_chars (q : ℚ) :
    ∀ c ∈ formatTimeChars q, ¬ pySpace c ∧ c ≠ '\n' ∧ c ≠ '\r' :=
  formatMillis_chars _

theorem formatMillis_def (m : Int) : formatMillis m =
    intPadZeros 2 (m.fdiv 3600000) ++ ':' :: intPadZeros 2 ((m.fmod 3600000).fdiv 60000)
      ++ ':' :: intPadZeros 2 ((m.fmod 60000).fdiv 1000)
      ++ ',' :: intPadZeros 3 (m.fmod 1000) := rfl

theorem formatTimeChars_head (q : ℚ) :
    ∃ c t, formatTimeChars q = c :: t ∧ ¬ pySpace c := by
  obtain ⟨c, t, hct⟩ := List.exists_cons_of_ne_nil (intPadZeros_ne_nil 2
    ((pyRound (dmul1000 q)).fdiv 3600000))
  have hc := (intPadZeros_chars _ _ c (by rw [hct]; exact List.mem_cons_self c t)).1
  refine ⟨c, t ++ ':' :: intPadZeros 2 (((pyRound (dmul1000 q)).fmod 3600000).fdiv 60000)
      ++ ':' :: intPadZeros 2 (((pyRound (dmul1000 q)).fmod 60000).fdiv 1000)
      ++ ',' :: intPadZeros 3 ((pyRound (dmul1000 q)).fmod 1000), ?_, hc⟩
  show formatMillis _ = _
  rw [formatMillis_def, hct]
  simp

theorem formatTimeChars_concat (q : ℚ) :
    ∃ ys d, formatTimeChars q = ys ++ [d] ∧ ¬ pySpace d := by
  obtain ⟨ys, d, hy, hd1, hd2⟩ := intPadZeros_concat 3 ((pyRound (dmul1000 q)).fmod 1000)
  refine ⟨intPadZeros 2 ((pyRound (dmul1000 q)).fdiv 3600000)
      ++ ':' :: intPadZeros 2 (((pyRound (dmul1000 q)).fmod 3600000).fdiv 60000)
      ++ ':' :: intPadZeros 2 (((pyRound (dmul1000 q)).fmod 60000).fdiv 1000)
      ++ ',' :: ys, d, ?_, (digit_not_space hd1 hd2).1⟩
  show formatMillis _ = _
  rw [formatMillis_def, hy]
  simp

theorem timeLine_no_nl (s : Seg) : ∀ c ∈ timeLine s, c ≠ '\n' ∧ c ≠ '\r' := by
  intro c hc
  simp only [timeLine, List.mem_append, List.mem_cons] at hc
  rcases hc with hc | rfl | rfl | rfl | rfl | rfl | hc
  · exact ⟨(formatTimeChars_chars s.start c hc).2.1, (formatTimeChars_chars s.start c hc).2.2⟩
  · exact ⟨by decide, by decide⟩
  · exact ⟨by decide, by decide⟩
  · exact ⟨by decide, by decide⟩
  · exact ⟨by decide, by decide⟩
  · exact ⟨by decide, by decide⟩
  · exact ⟨(formatTimeChars_chars s.stop c hc).2.1, (formatTimeChars_chars s.stop c hc).2.2⟩

theorem timeLine_head (s : Seg) : ∃ c t, timeLine s = c :: t ∧ ¬ pySpace c := by
  obtain ⟨c, t, hct, hc⟩ := formatTimeChars_head s.start
  refine ⟨c, t ++ ' ' :: '-' :: '-' :: '>' :: ' ' :: formatTimeChars s.stop, ?_, hc⟩
  unfold timeLine
  rw [hct]
  simp

theorem timeLine_concat (s : Seg) : ∃ ys d, timeLine s = ys ++ [d] ∧ ¬ pySpace d := by
  obtain ⟨ys, d, hy, hd⟩ := formatTimeChars_concat s.stop
  refine ⟨formatTimeChars s.start ++ ' ' :: '-' :: '-' :: '>' :: ' ' :: ys, d, ?_, hd⟩
  unfold timeLine
  rw [hy]
  simp

/-! ## Lemmas: `enumFrom` -/

theorem enumFrom_map_fst : ∀ (i : Nat) (l : List α),
    (enumFrom i l).map Prod.fst = List.range' i l.length := by
  intro i l
  induction l generalizing i with
  | nil => rfl
  | cons x t ih => simp [enumFrom, List.range', ih]

theorem enumFrom_map_snd : ∀ (i : Nat) (l : List α),
    (enumFrom i l).map Prod.snd = l := by
  intro i l
  induction l generalizing i with
  | nil => rfl
  | cons x t ih => simp [enumFrom, ih]

theorem enumFrom_length (i : Nat) (l : List α) : (enumFrom i l).length = l.length := by
  induction l generalizing i with
  | nil => rfl
  | cons x t ih => simp [enumFrom, ih]

theorem enumFrom_map (f : α → β) : ∀ (i : Nat) (l : List α),
    enumFrom i (l.map f) = (enumFrom i l).map fun p => (p.1, f p.2) := by
  intro i l
  induction l generalizing i with
  | nil => rfl
  | cons x t ih => simp [enumFrom, ih]

/-! ## CleanFor combinators -/

theorem suffix_append_cases {t x y : Chars} (h : t <:+ x ++ y) :
    t <:+ y ∨ ∃ u, t = u ++ y ∧ u <:+ x ∧ u ≠ [] := by
  induction x with
  | nil => exact Or.inl (by simpa using h)
  | cons c x' ih =>
    rw [List.cons_append, List.suffix_cons_iff] at h
    rcases h with h | h
    · exact Or.inr ⟨c :: x', by simpa using h, List.suffix_refl _, by simp⟩
    · rcases ih h with h' | ⟨u, hu, hux, hune⟩
      · exact Or.inl h'
      · exact Or.inr ⟨u, hu, hux.trans (List.suffix_cons c x'), hune⟩

theorem cleanFor_no_nl {x s : Chars} (h : ∀ c ∈ x, c ≠ '\n') : CleanFor x s := by
  intro t ht hsuf
  obtain ⟨c, u, rfl⟩ := List.exists_cons_of_ne_nil ht
  have hc : c ∈ x := hsuf.mem (List.mem_cons_self c u)
  exact sepMatch_cons_of_ne (h c hc) _

theorem cleanFor_append_no_nl {x y s : Chars} (hx : ∀ c ∈ x, c ≠ '\n')
    (hy : CleanFor y s) : CleanFor (x ++ y) s := by
  intro t ht hsuf
  rcases suffix_append_cases hsuf with h | ⟨u, rfl, hux, hune⟩
  · exact hy t ht h
  · obtain ⟨c, v, rfl⟩ := List.exists_cons_of_ne_nil hune
    have hc : c ∈ x := hux.mem (List.mem_cons_self c v)
    rw [List.cons_append, List.cons_append]
    exact sepMatch_cons_of_ne (hx c hc) _

theorem cleanFor_nl_cons {y s : Chars} (hy : ∃ d u, y = d :: u ∧ ¬ pySpace d)
    (hcl : CleanFor y s) : CleanFor ('\n' :: y) s := by
  intro t ht hsuf
  rw [List.suffix_cons_iff] at hsuf
  rcases hsuf with rfl | hsuf
  · obtain ⟨d, u, rfl, hd⟩ := hy
    rw [List.cons_append, List.cons_append]
    exact sepMatch_nl_nonspace hd _
  · exact hcl t ht hsuf

theorem asrRender_eq_core_sep (i : Nat) (s : Seg) :
    asrRender i s = segCore i s ++ segSep s := by
  unfold asrRender segCore segSep
  by_cases h : pyStrip s.text = []
  · rw [if_pos h, if_pos h, h]
    simp
  · rw [if_neg h, if_neg h]
    simp

theorem segCore_head (i : Nat) (s : Seg) :
    ∃ c t, segCore i s = c :: t ∧ ¬ pySpace c := by
  obtain ⟨c, t, hct⟩ := List.exists_cons_of_ne_nil (natDigits_ne_nil i)
  have hc : ¬ pySpace c := natDigits_not_space i c (by rw [hct]; exact List.mem_cons_self c t)
  refine ⟨c, t ++ '\n' :: (timeLine s ++
    (if pyStrip s.text = [] then [] else '\n' :: pyStrip s.text)), ?_, hc⟩
  unfold segCore
  rw [hct]
  simp

theorem segCore_concat (i : Nat) (s : Seg) :
    ∃ ys d, segCore i s = ys ++ [d] ∧ ¬ pySpace d := by
  unfold segCore
  by_cases h : pyStrip s.text = []
  · rw [if_pos h]
    obtain ⟨ys, d, hy, hd⟩ := timeLine_concat s
    refine ⟨natDigits i ++ '\n' :: ys, d, ?_, hd⟩
    rw [hy]
    simp
  · rw [if_neg h]
    have hrev : (pyStrip s.text).reverse ≠ [] := by
      simpa [List.reverse_eq_nil_iff] using h
    obtain ⟨d, u, hdu⟩ := List.exists_cons_of_ne_nil hrev
    have hb : pyStrip s.text = u.reverse ++ [d] := by
      rw [← List.reverse_reverse (pyStrip s.text), hdu]
      simp
    have hd : ¬ pySpace d := by simpa using pyStrip_last_false hb
    refine ⟨natDigits i ++ '\n' :: (timeLine s ++ '\n' :: u.reverse), d, ?_, hd⟩
    rw [hb]
    simp

theorem segSep_ws (s : Seg) : ∀ c ∈ segSep s, pySpace c := by
  intro c hc
  unfold segSep at hc
  by_cases h : pyStrip s.text = [] <;> simp [h] at hc <;> simp [hc, pySpace]

theorem segCore_clean {s : Seg} (hnl : '\n' ∉ pyStrip s.text) (i : Nat) (s' : Chars) :
    CleanFor (segCore i s) s' := by
  unfold segCore
  apply cleanFor_append_no_nl (fun c hc heq => natDigits_no_nl i (heq ▸ hc))
  obtain ⟨c, t, hct, hc⟩ := timeLine_head s
  apply cleanFor_nl_cons
  · refine ⟨c, t ++ (if pyStrip s.text = [] then [] else '\n' :: pyStrip s.text), ?_, hc⟩
    rw [hct]
    simp
  · apply cleanFor_append_no_nl (fun c hc => (timeLine_no_nl s c hc).1)
    by_cases h : pyStrip s.text = []
    · rw [if_pos h]
      exact cleanFor_nil s'
    · rw [if_neg h]
      obtain ⟨d, u, hdu⟩ := List.exists_cons_of_ne_nil h
      apply cleanFor_nl_cons
      · exact ⟨d, u, hdu, by simpa using pyStrip_head_false hdu⟩
      · exact cleanFor_no_nl fun c hc heq => hnl (heq ▸ hc)

theorem coreStream_head {l : List (Nat × Seg)} (h : l ≠ []) :
    ∃ c t, coreStream l = c :: t ∧ ¬ pySpace c := by
  match l with
  | [p] =>
    obtain ⟨c, t, hct, hc⟩ := segCore_head p.1 p.2
    exact ⟨c, t, hct, hc⟩
  | p :: q :: rest =>
    obtain ⟨c, t, hct, hc⟩ := segCore_head p.1 p.2
    refine ⟨c, t ++ (segSep p.2 ++ coreStream (q :: rest)), ?_, hc⟩
    show segCore p.1 p.2 ++ segSep p.2 ++ coreStream (q :: rest) = _
    rw [hct]
    simp

theorem coreStream_concat {l : List (Nat × Seg)} (h : l ≠ []) :
    ∃ ys d, coreStream l = ys ++ [d] ∧ ¬ pySpace d := by
  match l with
  | [p] =>
    obtain ⟨ys, d, hy, hd⟩ := segCore_concat p.1 p.2
    exact ⟨ys, d, hy, hd⟩
  | p :: q :: rest =>
    obtain ⟨ys, d, hy, hd⟩ := coreStream_concat (l := q :: rest) (by simp)
    refine ⟨segCore p.1 p.2 ++ segSep p.2 ++ ys, d, ?_, hd⟩
    show segCore p.1 p.2 ++ segSep p.2 ++ coreStream (q :: rest) = _
    rw [hy]
    simp

theorem sepMatch_segSep {s : Seg} {x : Chars}
    (hx : ∃ c t, x = c :: t ∧ ¬ pySpace c) :
    sepMatch (segSep s ++ x) = some x := by
  obtain ⟨c, t, rfl, hc⟩ := hx
  unfold segSep
  by_cases h : pyStrip s.text = []
  · rw [if_pos h]
    show sepMatch ('\n' :: '\n' :: '\n' :: (c :: t)) = some (c :: t)
    exact sepMatch_sep3 fun d u hdu => by
      injection hdu with h1 h2
      exact h1 ▸ hc
  · rw [if_neg h]
    show sepMatch ('\n' :: '\n' :: (c :: t)) = some (c :: t)
    exact sepMatch_sep2 fun d u hdu => by
      injection hdu with h1 h2
      exact h1 ▸ hc

theorem coreStream_split :
    ∀ l : List (Nat × Seg), l ≠ [] → (∀ p ∈ l, '\n' ∉ pyStrip p.2.text) →
      reSplitBlank (coreStream l) = l.map fun p => segCore p.1 p.2 := by
  intro l
  induction l with
  | nil => intro h; exact absurd rfl h
  | cons p l' ih =>
    intro _ hnl
    cases l' with
    | nil =>
      show reSplitBlank (segCore p.1 p.2) = [segCore p.1 p.2]
      unfold reSplitBlank
      have hch := splitF_chunk (segCore p.1 p.2) 1 [] []
        (segCore_clean (hnl p (List.mem_cons_self p [])) p.1 [])
      rw [List.append_nil] at hch
      rw [hch]
      simp [splitF_nil]
    | cons q rest =>
      have hstream : coreStream (p :: q :: rest)
          = segCore p.1 p.2 ++ (segSep p.2 ++ coreStream (q :: rest)) := by
        show segCore p.1 p.2 ++ segSep p.2 ++ coreStream (q :: rest) = _
        simp
      unfold reSplitBlank
      rw [hstream]
      set S := segSep p.2 ++ coreStream (q :: rest) with hS
      have hlen : (segCore p.1 p.2 ++ S).length + 1
          = (segCore p.1 p.2).length + (S.length + 1) := by
        simp [List.length_append]
        omega
      rw [hlen, splitF_chunk (segCore p.1 p.2) (S.length + 1) [] S
        (segCore_clean (hnl p (List.mem_cons_self p _)) p.1 S)]
      have hsep : sepMatch S = some (coreStream (q :: rest)) :=
        sepMatch_segSep (coreStream_head (by simp))
      obtain ⟨c0, t0, hS0⟩ : ∃ c0 t0, S = c0 :: t0 := by
        rw [hS]
        unfold segSep
        by_cases h : pyStrip p.2.text = [] <;> simp [h]
      rw [hS0] at hsep
      rw [hS0]
      simp only [List.length_cons]
      rw [splitF_cons_sep (t0.length + 1) _ hsep]
      have hfuel : (coreStream (q :: rest)).length < t0.length + 1 := by
        have := sepMatch_length hsep
        simp only [List.length_cons] at this
        omega
      rw [splitF_congr_fuel (t0.length + 1) ((coreStream (q :: rest)).length + 1) []
        (coreStream (q :: rest)) hfuel (Nat.lt_succ_self _)]
      have hih := ih (by simp) (fun r hr => hnl r (List.mem_cons_of_mem p hr))
      unfold reSplitBlank at hih
      rw [hih]
      simp

theorem renders_flatten :
    ∀ l : List (Nat × Seg), l ≠ [] →
      ∃ w, ((l.map fun r => asrRender r.1 r.2).flatten = coreStream l ++ w
        ∧ ∀ c ∈ w, pySpace c) := by
  intro l
  induction l with
  | nil => intro h; exact absurd rfl h
  | cons p l' ih =>
    intro _
    cases l' with
    | nil =>
      refine ⟨segSep p.2, ?_, segSep_ws p.2⟩
      show asrRender p.1 p.2 ++ [] = segCore p.1 p.2 ++ segSep p.2
      rw [List.append_nil, asrRender_eq_core_sep]
    | cons q rest =>
      obtain ⟨w, hw, hws⟩ := ih (by simp)
      refine ⟨w, ?_, hws⟩
      show asrRender p.1 p.2 ++ ((q :: rest).map fun r => asrRender r.1 r.2).flatten = _
      rw [hw, asrRender_eq_core_sep]
      show _ = segCore p.1 p.2 ++ segSep p.2 ++ coreStream (q :: rest) ++ w
      simp

theorem asrRender_chars {s : Seg} (hcr : '\r' ∉ pyStrip s.text) (i : Nat) :
    ∀ c ∈ asrRender i s, c ≠ '\r' := by
  intro c hc heq
  subst heq
  unfold asrRender at hc
  have h1 : '\r' ∉ natDigits i := fun h =>
    (digit_not_space (natDigits_all_digit i _ h).1 (natDigits_all_digit i _ h).2).2.2 rfl
  have h2 : '\r' ∉ timeLine s := fun h => (timeLine_no_nl s _ h).2 rfl
  simp [List.mem_append, List.mem_cons, h1, h2, hcr] at hc

theorem mem_enumFrom {p : Nat × α} : ∀ {i : Nat} {l : List α}, p ∈ enumFrom i l → p.2 ∈ l := by
  intro i l
  induction l generalizing i with
  | nil => intro h; simp [enumFrom] at h
  | cons x t ih =>
    intro h
    unfold enumFrom at h
    rw [List.mem_cons] at h
    rcases h with rfl | h
    · exact List.mem_cons_self x t
    · exact List.mem_cons_of_mem x (ih h)

theorem processBlock_segCore {s : Seg} (hnl : '\n' ∉ pyStrip s.text) (i : Nat) :
    processBlock (segCore i s) = some (segEntry s) := by
  have hnd : '\n' ∉ natDigits i := natDigits_no_nl i
  have htl : '\n' ∉ timeLine s := fun h => (timeLine_no_nl s '\n' h).1 rfl
  unfold processBlock segCore segEntry
  by_cases h : pyStrip s.text = []
  · rw [if_pos h, if_pos h, List.append_nil, splitNL_append_cons hnd,
      splitNL_of_no_nl htl]
    simp [pyStrip_natDigits, pyIsDigit_natDigits]
  · rw [if_neg h, if_neg h, splitNL_append_cons hnd, splitNL_append_cons htl,
      splitNL_of_no_nl hnl]
    simp [pyStrip_natDigits, pyIsDigit_natDigits]

theorem parse_asrWrite {segs : List Seg} (hne : segs ≠ [])
    (hnl : ∀ s ∈ segs, '\n' ∉ pyStrip s.text) (hcr : ∀ s ∈ segs, '\r' ∉ pyStrip s.text) :
    parseChars (asrWriteChars segs) = segs.map segEntry := by
  have henum : enumFrom 1 segs ≠ [] := by
    cases segs with
    | nil => exact absurd rfl hne
    | cons x t => simp [enumFrom]
  have hfil : (asrWriteChars segs).filter (fun c => c ≠ '\r') = asrWriteChars segs := by
    rw [List.filter_eq_self]
    intro c hc
    unfold asrWriteChars at hc
    rw [List.mem_flatten] at hc
    obtain ⟨blk, hblk, hcblk⟩ := hc
    rw [List.mem_map] at hblk
    obtain ⟨p, hp, rfl⟩ := hblk
    simpa using asrRender_chars (hcr p.2 (mem_enumFrom hp)) p.1 c hcblk
  obtain ⟨w, hw, hws⟩ := renders_flatten (enumFrom 1 segs) henum
  have hstream : asrWriteChars segs = coreStream (enumFrom 1 segs) ++ w := hw
  have hstrip : pyStrip (asrWriteChars segs) = coreStream (enumFrom 1 segs) := by
    rw [hstream, pyStrip_append_ws hws]
    obtain ⟨c0, t0, hh, hc0⟩ := coreStream_head henum
    obtain ⟨ys, d, hcc, hd⟩ := coreStream_concat henum
    exact pyStrip_eq_self
      (fun c t hl => by rw [hl] at hh; injection hh with h1 _; exact h1 ▸ hc0)
      (fun ys2 d2 hl => by
        rw [hl] at hcc
        have := List.append_inj_right' hcc (by simp)
        injection this with h1 _
        exact h1 ▸ hd)
  have hnl' : ∀ p ∈ enumFrom 1 segs, '\n' ∉ pyStrip p.2.text :=
    fun p hp => hnl p.2 (mem_enumFrom hp)
  unfold parseChars
  rw [hfil, hstrip, coreStream_split (enumFrom 1 segs) henum hnl']
  have : ∀ l : List (Nat × Seg), (∀ p ∈ l, '\n' ∉ pyStrip p.2.text) →
      (l.map fun p => segCore p.1 p.2).filterMap processBlock
        = l.map fun p => segEntry p.2 := by
    intro l
    induction l with
    | nil => intro _; rfl
    | cons p t ih =>
      intro hl
      rw [List.map_cons, List.filterMap_cons,
        processBlock_segCore (hl p (List.mem_cons_self p t)) p.1]
      rw [List.map_cons, ih fun r hr => hl r (List.mem_cons_of_mem p hr)]
  rw [this (enumFrom 1 segs) hnl']
  have hmm : (enumFrom 1 segs).map (fun p => segEntry p.2)
      = ((enumFrom 1 segs).map Prod.snd).map segEntry := by
    rw [List.map_map]
    rfl
  rw [hmm, enumFrom_map_snd]

theorem renderEntry_segEntry (i : Nat) (s : Seg) :
    renderEntry i (segEntry s) = asrRender i s := by
  unfold renderEntry segEntry asrRender
  by_cases h : pyStrip s.text = []
  · rw [if_pos h, h]
    show natDigits i ++ '\n' :: timeLine s ++ '\n' :: (pyStrip (joinNL []) ++ ['\n', '\n']) = _
    rw [joinNL_nil, pyStrip_nil]
  · rw [if_neg h]
    show natDigits i ++ '\n' :: timeLine s
        ++ '\n' :: (pyStrip (joinNL [pyStrip s.text]) ++ ['\n', '\n']) = _
    rw [joinNL_single, pyStrip_idem]

theorem write_segEntries (segs : List Seg) :
    writeChars (segs.map segEntry) = asrWriteChars segs := by
  unfold writeChars asrWriteChars
  rw [enumFrom_map, List.map_map]
  refine congrArg List.flatten (List.map_congr_left fun p _ => ?_)
  exact renderEntry_segEntry p.1 p.2

/-! ## Lemmas: the rounding model -/

theorem ratFloor_eq (q : ℚ) : ratFloor q = ⌊q⌋ := (Rat.floor_def).symm

theorem den_cast_pos (q : ℚ) : (0 : ℚ) < (q.den : ℚ) := by
  exact_mod_cast q.den_pos

theorem num_eq_mul_den (q : ℚ) : (q.num : ℚ) = q * (q.den : ℚ) := by
  have h := Rat.num_div_den q
  rw [div_eq_iff (den_cast_pos q).ne'] at h
  exact h

theorem pyRound_eq (q : ℚ) :
    pyRound q = if q - ⌊q⌋ < 1/2 then ⌊q⌋
      else if 1/2 < q - ⌊q⌋ then ⌊q⌋ + 1
      else if ⌊q⌋ % 2 = 0 then ⌊q⌋ else ⌊q⌋ + 1 := by
  have hd : (0 : ℚ) < (q.den : ℚ) := den_cast_pos q
  have hcast : ((2 * (q.num - ⌊q⌋ * (q.den : ℤ)) : ℤ) : ℚ)
      = 2 * (q - ⌊q⌋) * (q.den : ℚ) := by
    push_cast
    rw [num_eq_mul_den]
    ring
  have hmul : ∀ a b : ℚ, a * (q.den : ℚ) < b * (q.den : ℚ) ↔ a < b :=
    fun a b => mul_lt_mul_right hd
  have h1 : (2 * (q.num - ⌊q⌋ * (q.den : ℤ)) < (q.den : ℤ)) ↔ q - ⌊q⌋ < 1/2 := by
    have hstep : (2 * (q.num - ⌊q⌋ * (q.den : ℤ)) < (q.den : ℤ)) ↔
        (2 * (q - ⌊q⌋)) * (q.den : ℚ) < 1 * (q.den : ℚ) := by
      constructor
      · intro hh
        have hc : ((2 * (q.num - ⌊q⌋ * (q.den : ℤ)) : ℤ) : ℚ) < (((q.den : ℤ)) : ℚ) := by
          exact_mod_cast hh
        rw [hcast] at hc
        calc (2 * (q - ⌊q⌋)) * (q.den : ℚ) = 2 * (q - ⌊q⌋) * (q.den : ℚ) := by ring
          _ < (((q.den : ℤ)) : ℚ) := hc
          _ = 1 * (q.den : ℚ) := by push_cast; ring
      · intro hh
        have hc : 2 * (q - ⌊q⌋) * (q.den : ℚ) < (((q.den : ℤ)) : ℚ) := by
          calc 2 * (q - ⌊q⌋) * (q.den : ℚ) = (2 * (q - ⌊q⌋)) * (q.den : ℚ) := by ring
            _ < 1 * (q.den : ℚ) := hh
            _ = (((q.den : ℤ)) : ℚ) := by push_cast; ring
        rw [← hcast] at hc
        exact_mod_cast hc
    rw [hstep, hmul]
    constructor <;> intro <;> linarith
  have h2 : ((q.den : ℤ) < 2 * (q.num - ⌊q⌋ * (q.den : ℤ))) ↔ 1/2 < q - ⌊q⌋ := by
    have hstep : ((q.den : ℤ) < 2 * (q.num - ⌊q⌋ * (q.den : ℤ))) ↔
        1 * (q.den : ℚ) < (2 * (q - ⌊q⌋)) * (q.den : ℚ) := by
      constructor
      · intro hh
        have hc : (((q.den : ℤ)) : ℚ) < ((2 * (q.num - ⌊q⌋ * (q.den : ℤ)) : ℤ) : ℚ) := by
          exact_mod_cast hh
        rw [hcast] at hc
        calc 1 * (q.den : ℚ) = (((q.den : ℤ)) : ℚ) := by push_cast; ring
          _ < 2 * (q - ⌊q⌋) * (q.den : ℚ) := hc
          _ = (2 * (q - ⌊q⌋)) * (q.den : ℚ) := by ring
      · intro hh
        have hc : (((q.den : ℤ)) : ℚ) < 2 * (q - ⌊q⌋) * (q.den : ℚ) := by
          calc (((q.den : ℤ)) : ℚ) = 1 * (q.den : ℚ) := by push_cast; ring
            _ < (2 * (q - ⌊q⌋)) * (q.den : ℚ) := hh
            _ = 2 * (q - ⌊q⌋) * (q.den : ℚ) := by ring
        rw [← hcast] at hc
        exact_mod_cast hc
    rw [hstep, hmul]
    constructor <;> intro <;> linarith
  show (if 2 * (q.num - ratFloor q * (q.den : ℤ)) < (q.den : ℤ) then ratFloor q
    else if (q.den : ℤ) < 2 * (q.num - ratFloor q * (q.den : ℤ)) then ratFloor q + 1
    else if ratFloor q % 2 = 0 then ratFloor q else ratFloor q + 1) = _
  rw [ratFloor_eq]
  simp only [h1, h2]

theorem pyRound_dist (q : ℚ) : |((pyRound q : ℤ) : ℚ) - q| ≤ 1/2 := by
  rw [pyRound_eq]
  have h1 := Int.floor_le q
  have h2 := Int.lt_floor_add_one q
  by_cases hc1 : q - ⌊q⌋ < 1/2
  · rw [if_pos hc1, abs_le]
    constructor <;> push_cast <;> linarith
  · rw [if_neg hc1]
    by_cases hc2 : 1/2 < q - ⌊q⌋
    · rw [if_pos hc2, abs_le]
      constructor <;> push_cast <;> linarith
    · rw [if_neg hc2]
      have hle : q - ⌊q⌋ ≤ 1/2 := not_lt.1 hc2
      have hge : 1/2 ≤ q - ⌊q⌋ := not_lt.1 hc1
      by_cases hc3 : ⌊q⌋ % 2 = 0
      · rw [if_pos hc3, abs_le]
        constructor <;> push_cast <;> linarith
      · rw [if_neg hc3, abs_le]
        constructor <;> push_cast <;> linarith

theorem pyRound_tie (z : ℤ) :
    pyRound ((z : ℚ) + 1/2) = if z % 2 = 0 then z else z + 1 := by
  rw [pyRound_eq]
  have hf : ⌊(z : ℚ) + 1/2⌋ = z := by
    rw [Int.floor_int_add,
      show ⌊(1/2 : ℚ)⌋ = 0 from Int.floor_eq_zero_iff.2 ⟨by norm_num, by norm_num⟩]
    ring
  rw [hf]
  have hr : (z : ℚ) + 1/2 - z = 1/2 := by ring
  rw [hr]
  norm_num

/-! ## Lemmas: powers of two and the binade -/

theorem pow2N_eq (n : Nat) : pow2N n = (2 : ℚ) ^ n := by
  induction n with
  | zero => rfl
  | succ n ih =>
    show (2 : ℚ) * pow2N n = _
    rw [ih, pow_succ]
    ring

theorem pow2Z_eq (e : ℤ) : pow2Z e = (2 : ℚ) ^ e := by
  unfold pow2Z
  by_cases h : 0 ≤ e
  · rw [if_pos h, pow2N_eq, ← zpow_natCast, Int.toNat_of_nonneg h]
  · rw [if_neg h, pow2N_eq, ← zpow_natCast, Int.toNat_of_nonneg (by omega : (0:ℤ) ≤ -e),
      one_div, ← zpow_neg, neg_neg]

theorem pow2Z_pos (e : ℤ) : 0 < pow2Z e := by
  rw [pow2Z_eq]
  positivity

theorem natLog2F_bounds :
    ∀ (f n : Nat), 1 ≤ n → n < 2 ^ f →
      2 ^ natLog2F f n ≤ n ∧ n < 2 ^ (natLog2F f n + 1) := by
  intro f
  induction f with
  | zero => intro n h1 h2; omega
  | succ f ih =>
    intro n h1 h2
    by_cases h : n ≤ 1
    · have : n = 1 := by omega
      subst this
      show 2 ^ natLog2F (f + 1) 1 ≤ 1 ∧ 1 < 2 ^ (natLog2F (f + 1) 1 + 1)
      have : natLog2F (f + 1) 1 = 0 := by
        show (if 1 ≤ 1 then 0 else natLog2F f (1 / 2) + 1) = 0
        rw [if_pos (by omega)]
      rw [this]
      omega
    · have hstep : natLog2F (f + 1) n = natLog2F f (n / 2) + 1 := by
        show (if n ≤ 1 then 0 else natLog2F f (n / 2) + 1) = _
        rw [if_neg h]
      have hdiv1 : 1 ≤ n / 2 := by omega
      have hdiv2 : n / 2 < 2 ^ f := by
        rw [Nat.div_lt_iff_lt_mul (by omega)]
        rw [pow_succ] at h2
        omega
      obtain ⟨hl, hr⟩ := ih (n / 2) hdiv1 hdiv2
      rw [hstep]
      have hps : (2:ℕ) ^ (natLog2F f (n/2) + 1) = 2 ^ natLog2F f (n/2) * 2 := pow_succ 2 _
      have hps2 : (2:ℕ) ^ (natLog2F f (n/2) + 1 + 1)
          = 2 ^ (natLog2F f (n/2) + 1) * 2 := pow_succ 2 _
      constructor
      · rw [hps]
        omega
      · rw [hps2, hps]
        rw [hps] at hr
        omega

theorem natLog2_bounds (n : Nat) (h : 1 ≤ n) :
    2 ^ natLog2 n ≤ n ∧ n < 2 ^ (natLog2 n + 1) :=
  natLog2F_bounds (n + 1) n h (lt_of_lt_of_le (Nat.lt_two_pow n)
    (Nat.pow_le_pow_right (by omega) (by omega)))

theorem expOf_le {q : ℚ} (h : 0 < q) : pow2Z (expOf q) ≤ q := by
  unfold expOf
  rw [if_neg (not_le.2 h)]
  set e0 : ℤ := (natLog2 q.num.toNat : ℤ) - (natLog2 q.den : ℤ) with he0
  by_cases hc : pow2Z e0 ≤ q
  · rw [if_pos hc]
    exact hc
  · rw [if_neg hc]
    have hnum : 1 ≤ q.num.toNat := by
      have := (Rat.num_pos).2 h
      omega
    have hden : 1 ≤ q.den := q.den_pos
    obtain ⟨hn1, _⟩ := natLog2_bounds q.num.toNat hnum
    obtain ⟨_, hd2⟩ := natLog2_bounds q.den hden
    have hq : q = (q.num : ℚ) / (q.den : ℚ) := (Rat.num_div_den q).symm
    have hnn : (0:ℤ) ≤ q.num := le_of_lt ((Rat.num_pos).2 h)
    have htn : ((q.num.toNat : ℤ) : ℚ) = (q.num : ℚ) := by
      rw [Int.toNat_of_nonneg hnn]
    have hnum2 : ((2 : ℚ) ^ natLog2 q.num.toNat) ≤ (q.num : ℚ) := by
      have h1q : ((2 ^ natLog2 q.num.toNat : ℕ) : ℚ) ≤ ((q.num.toNat : ℕ) : ℚ) := by
        exact_mod_cast hn1
      calc (2 : ℚ) ^ natLog2 q.num.toNat
          = ((2 ^ natLog2 q.num.toNat : ℕ) : ℚ) := by push_cast; ring
        _ ≤ ((q.num.toNat : ℕ) : ℚ) := h1q
        _ = ((q.num.toNat : ℤ) : ℚ) := by push_cast; ring
        _ = (q.num : ℚ) := htn
    have hden2 : ((q.den : ℕ) : ℚ) ≤ (2 : ℚ) ^ (natLog2 q.den + 1) := by
      exact_mod_cast Nat.le_of_lt hd2
    have hdiv : (2 : ℚ) ^ natLog2 q.num.toNat / (2 : ℚ) ^ (natLog2 q.den + 1) ≤ q := by
      conv_rhs => rw [hq]
      exact div_le_div (by positivity) hnum2 (by positivity) hden2
    have hz : pow2Z (e0 - 1)
        = (2 : ℚ) ^ natLog2 q.num.toNat / (2 : ℚ) ^ (natLog2 q.den + 1) := by
      rw [pow2Z_eq, he0]
      rw [div_eq_mul_inv, ← zpow_natCast (2:ℚ) (natLog2 q.num.toNat),
        ← zpow_natCast (2:ℚ) (natLog2 q.den + 1), ← zpow_neg, ← zpow_add₀ (by norm_num : (2:ℚ) ≠ 0)]
      congr 1
      push_cast
      ring
    rw [hz]
    exact hdiv

/-! ## Lemmas: the hours field for large inputs -/

theorem dmul1000_lower {q : ℚ} (h : 0 < q) :
    (1 - pow2Z (-53)) * (1000 * q) ≤ dmul1000 q := by
  have hy : (0 : ℚ) < 1000 * q := by positivity
  have habs : (if 1000 * q < 0 then -(1000 * q) else 1000 * q) = 1000 * q :=
    if_neg (not_lt.2 (le_of_lt hy))
  have hq0 : q ≠ 0 := ne_of_gt h
  show (1 - pow2Z (-53)) * (1000 * q) ≤
    (if q = 0 then 0 else
      mkRat (pyRound ((1000 * q) / pow2Z (expOf
        (if 1000 * q < 0 then -(1000 * q) else 1000 * q) - 52))) 1
        * pow2Z (expOf (if 1000 * q < 0 then -(1000 * q) else 1000 * q) - 52))
  rw [if_neg hq0, habs]
  set y := 1000 * q with hyy
  set e : ℤ := expOf y with he
  set u : ℚ := pow2Z (e - 52) with hu
  have hupos : 0 < u := pow2Z_pos _
  rw [Rat.mkRat_one]
  have hround : ((pyRound (y / u) : ℤ) : ℚ) ≥ y / u - 1/2 := by
    have := pyRound_dist (y / u)
    rw [abs_le] at this
    linarith [this.1]
  have hstep : (y / u - 1/2) * u ≤ ((pyRound (y / u) : ℤ) : ℚ) * u := by
    exact mul_le_mul_of_nonneg_right hround (le_of_lt hupos)
  have hys : (y / u - 1/2) * u = y - u / 2 := by
    field_simp
    ring
  have hule : u ≤ y * pow2Z (-52) := by
    have h2e : pow2Z e ≤ y := expOf_le hy
    have he1 : pow2Z (e - 52) = pow2Z e * pow2Z (-52) := by
      rw [pow2Z_eq, pow2Z_eq, pow2Z_eq, ← zpow_add₀ (by norm_num : (2:ℚ) ≠ 0)]
      congr 1
    rw [hu, he1]
    exact mul_le_mul_of_nonneg_right h2e (le_of_lt (pow2Z_pos _))
  have hpow : pow2Z (-52 : ℤ) = 2 * pow2Z (-53 : ℤ) := by
    rw [pow2Z_eq, pow2Z_eq, show ((-52 : ℤ)) = 1 + (-53) by ring,
      zpow_add₀ (by norm_num : (2:ℚ) ≠ 0), zpow_one]
  calc (1 - pow2Z (-53)) * y = y - y * pow2Z (-53) := by ring
    _ ≤ y - u / 2 := by
        have : u / 2 ≤ y * pow2Z (-53) := by
          rw [hpow] at hule
          linarith
        linarith
    _ = (y / u - 1/2) * u := hys.symm
    _ ≤ ((pyRound (y / u) : ℤ) : ℚ) * u := hstep

theorem millis_ge_of_ge_360000 {q : ℚ} (h : 360000 ≤ q) :
    360000000 ≤ pyRound (dmul1000 q) := by
  have hq : (0:ℚ) < q := lt_of_lt_of_le (by norm_num) h
  have h1 : (1 - pow2Z (-53)) * (1000 * q) ≤ dmul1000 q := dmul1000_lower hq
  have hp53 : pow2Z (-53 : ℤ) = 1 / 2 ^ 53 := by
    rw [pow2Z_eq, show ((-53 : ℤ)) = -((53 : ℕ) : ℤ) by norm_num, zpow_neg,
      zpow_natCast, one_div]
  have hsmall : (0:ℚ) < pow2Z (-53) ∧ pow2Z (-53) ≤ 1 / 2 ^ 53 := by
    constructor
    · exact pow2Z_pos _
    · rw [hp53]
  have h2 : (360000000 : ℚ) - 1/10 ≤ dmul1000 q := by
    have hmono : (1 - pow2Z (-53)) * (1000 * 360000) ≤ (1 - pow2Z (-53)) * (1000 * q) := by
      apply mul_le_mul_of_nonneg_left _ _
      · linarith
      · rw [hp53]
        norm_num
    have hval : (360000000 : ℚ) - 1/10 ≤ (1 - pow2Z (-53)) * (1000 * 360000) := by
      rw [hp53]
      norm_num
    linarith
  have h3 : ((pyRound (dmul1000 q) : ℤ) : ℚ) ≥ dmul1000 q - 1/2 := by
    have := pyRound_dist (dmul1000 q)
    rw [abs_le] at this
    linarith [this.1]
  by_contra hcon
  push_neg at hcon
  have : pyRound (dmul1000 q) ≤ 359999999 := by omega
  have hcast : ((pyRound (dmul1000 q) : ℤ) : ℚ) ≤ 359999999 := by exact_mod_cast this
  linarith

theorem natDigits_length_pos (n : Nat) : 1 ≤ (natDigits n).length := by
  rw [natDigits_eq]
  by_cases h : n < 10 <;> simp [h]

theorem natDigits_length_le_two {n : Nat} (h : n < 100) : (natDigits n).length ≤ 2 := by
  rw [natDigits_eq]
  by_cases h1 : n < 10
  · simp [h1]
  · rw [if_neg h1]
    have : n / 10 < 10 := by omega
    rw [natDigits_eq, if_pos this]
    simp

theorem natDigits_length_le_three {n : Nat} (h : n < 1000) : (natDigits n).length ≤ 3 := by
  rw [natDigits_eq]
  by_cases h1 : n < 10
  · simp [h1]
  · rw [if_neg h1]
    have : n / 10 < 100 := by omega
    have := natDigits_length_le_two this
    simp
    omega

theorem natDigits_length_ge_three {n : Nat} (h : 100 ≤ n) : 3 ≤ (natDigits n).length := by
  rw [natDigits_eq, if_neg (by omega)]
  have h10 : 10 ≤ n / 10 := by omega
  rw [natDigits_eq, if_neg (by omega)]
  have := natDigits_length_pos (n / 10 / 10)
  simp
  omega

theorem intPadZeros_nonneg_def {z : ℤ} (h : 0 ≤ z) (w : Nat) :
    intPadZeros w z = List.replicate (w - (natDigits z.toNat).length) '0' ++ natDigits z.toNat := by
  unfold intPadZeros
  rw [if_neg (not_lt.2 h)]

theorem intPadZeros_length {z : ℤ} (h : 0 ≤ z) (w : Nat) :
    (intPadZeros w z).length = max w (natDigits z.toNat).length := by
  rw [intPadZeros_nonneg_def h w]
  simp [List.length_append, List.length_replicate]
  omega

theorem intPadZeros_eq_digits {z : ℤ} (h : 0 ≤ z) {w : Nat}
    (hw : w ≤ (natDigits z.toNat).length) : intPadZeros w z = natDigits z.toNat := by
  rw [intPadZeros_nonneg_def h w, Nat.sub_eq_zero_of_le hw]
  rfl

/-! ## Lemmas: blocks produced by the blank-line splitter have no empty lines -/

theorem lastNLSplit_cons (c : Char) (cs : Chars) :
    lastNLSplit (c :: cs) = (match lastNLSplit cs with
      | some a => some a
      | none => if c = '\n' then some cs else none) := rfl

theorem lastNLSplit_none_no_nl : ∀ {w : Chars}, lastNLSplit w = none → '\n' ∉ w := by
  intro w
  induction w with
  | nil => intro _ h; exact absurd h (List.not_mem_nil _)
  | cons c cs ih =>
    intro h hm
    rw [lastNLSplit_cons] at h
    cases hcs : lastNLSplit cs with
    | some a => rw [hcs] at h; exact Option.noConfusion h
    | none =>
      rw [hcs] at h
      by_cases hc : c = '\n'
      · rw [if_pos hc] at h; exact Option.noConfusion h
      · rcases List.mem_cons.1 hm with h1 | h1
        · exact hc h1.symm
        · exact ih hcs h1

theorem lastNLSplit_some_no_nl : ∀ {w after : Chars}, lastNLSplit w = some after →
    '\n' ∉ after := by
  intro w
  induction w with
  | nil => intro after h; exact Option.noConfusion h
  | cons c cs ih =>
    intro after h
    rw [lastNLSplit_cons] at h
    cases hcs : lastNLSplit cs with
    | some a =>
      rw [hcs] at h
      injection h with h1
      rw [← h1]
      exact ih hcs
    | none =>
      rw [hcs] at h
      by_cases hc : c = '\n'
      · rw [if_pos hc] at h
        injection h with h1
        rw [← h1]
        exact lastNLSplit_none_no_nl hcs
      · rw [if_neg hc] at h
        exact Option.noConfusion h

theorem sepMatch_nl_eq (rest : Chars) :
    sepMatch ('\n' :: rest) = (match lastNLSplit (rest.takeWhile pySpace) with
      | some after => some (after ++ rest.dropWhile pySpace)
      | none => none) := by
  have h : sepMatch ('\n' :: rest) = (if ('\n' : Char) = '\n' then
      (match lastNLSplit (rest.takeWhile pySpace) with
        | some after => some (after ++ rest.dropWhile pySpace)
        | none => none) else none) := rfl
  rw [h, if_pos rfl]

theorem sepMatch_some_spec {s r : Chars} (h : sepMatch s = some r) :
    ∃ rest after, s = '\n' :: rest
      ∧ lastNLSplit (rest.takeWhile pySpace) = some after
      ∧ r = after ++ rest.dropWhile pySpace := by
  cases s with
  | nil => exact Option.noConfusion h
  | cons c rest =>
    by_cases hc : c = '\n'
    · subst hc
      rw [sepMatch_nl_eq] at h
      cases hm : lastNLSplit (rest.takeWhile pySpace) with
      | some after =>
        rw [hm] at h
        injection h with h1
        exact ⟨rest, after, rfl, hm, h1.symm⟩
      | none => rw [hm] at h; exact Option.noConfusion h
    · rw [sepMatch_cons_of_ne hc] at h
      exact Option.noConfusion h

theorem sepMatch_some_head {s r : Chars} (h : sepMatch s = some r) :
    ∀ c t, r = c :: t → c ≠ '\n' := by
  obtain ⟨rest, after, hs, hm, hr⟩ := sepMatch_some_spec h
  intro c t hct hc
  subst hc
  have hnn : '\n' ∉ after := lastNLSplit_some_no_nl hm
  cases after with
  | nil =>
    rw [List.nil_append] at hr
    rw [hr] at hct
    exact absurd (dropWhile_head_false hct) (by decide)
  | cons a u =>
    rw [List.cons_append] at hr
    rw [hr] at hct
    injection hct with h1 h2
    exact hnn (List.mem_cons.2 (Or.inl h1.symm))

theorem sepMatch_some_last {s r : Chars} (h : sepMatch s = some r)
    (hw : ∀ ys e, s = ys ++ [e] → pySpace e = false) :
    ∀ ys e, r = ys ++ [e] → pySpace e = false := by
  obtain ⟨rest, after, hs, hm, hr⟩ := sepMatch_some_spec h
  subst hs
  have hrest : rest ≠ [] := by
    intro h0
    subst h0
    exact Option.noConfusion hm
  obtain ⟨ys1, e1, hre⟩ : ∃ ys1 e1, rest = ys1 ++ [e1] := by
    rcases List.eq_nil_or_concat rest with h0 | ⟨L, b, h0⟩
    · exact absurd h0 hrest
    · exact ⟨L, b, by simpa using h0⟩
  have he1 : pySpace e1 = false := hw ('\n' :: ys1) e1 (by simp [hre])
  have hdw : rest.dropWhile pySpace ≠ [] := by
    intro h0
    have hall := List.dropWhile_eq_nil_iff.1 h0 e1 (by rw [hre]; simp)
    rw [he1] at hall
    exact Bool.noConfusion hall
  intro ys e hre2
  have h1 : r.getLast? = (rest.dropWhile pySpace).getLast? := by
    rw [hr]
    exact List.getLast?_append_of_ne_nil after hdw
  have h2 : (rest.dropWhile pySpace).getLast? = rest.getLast? := by
    obtain ⟨t, ht⟩ := List.dropWhile_suffix (l := rest) pySpace
    conv_rhs => rw [← ht]
    exact (List.getLast?_append_of_ne_nil t hdw).symm
  have h3 : rest.getLast? = some e1 := by
    rw [hre]
    exact List.getLast?_concat _
  have h4 : r.getLast? = some e := by
    rw [hre2]
    exact List.getLast?_concat _
  rw [h4, h2, h3] at h1
  injection h1 with h5
  rw [h5]
  exact he1

theorem sepMatch_none_head_nl {rest : Chars} (h : sepMatch ('\n' :: rest) = none) :
    ∀ u, rest ≠ '\n' :: u := by
  intro u hu
  rw [sepMatch_nl_eq] at h
  cases hm : lastNLSplit (rest.takeWhile pySpace) with
  | some a => rw [hm] at h; exact Option.noConfusion h
  | none =>
    apply lastNLSplit_none_no_nl hm
    rw [hu, List.takeWhile_cons_of_pos (by decide)]
    exact List.mem_cons_self _ _

theorem hasNN_nil : ¬ hasNN [] := by
  intro h
  obtain ⟨l1, l2, h0⟩ := h
  cases l1 <;> simp at h0

theorem hasNN_cons {c : Char} {l : Chars} (h : hasNN (c :: l)) :
    (c = '\n' ∧ ∃ t, l = '\n' :: t) ∨ hasNN l := by
  obtain ⟨l1, l2, hl⟩ := h
  cases l1 with
  | nil =>
    rw [List.nil_append] at hl
    injection hl with h1 h2
    exact Or.inl ⟨h1, l2, h2⟩
  | cons a l1t =>
    rw [List.cons_append] at hl
    injection hl with h1 h2
    exact Or.inr ⟨l1t, l2, h2⟩

theorem hasNN_reverse {l : Chars} (h : hasNN l.reverse) : hasNN l := by
  obtain ⟨l1, l2, hl⟩ := h
  refine ⟨l2.reverse, l1.reverse, ?_⟩
  have h2 := congrArg List.reverse hl
  rw [List.reverse_reverse] at h2
  rw [h2, List.reverse_append]
  simp

theorem splitNL_no_empty :
    ∀ (n : Nat) (b : Chars), b.length ≤ n → b ≠ [] →
      (∀ t, b ≠ '\n' :: t) → (∀ ys, b ≠ ys ++ ['\n']) → ¬ hasNN b →
      [] ∉ splitNL b := by
  intro n
  induction n with
  | zero =>
    intro b hlen hne _ _ _
    exact absurd (List.length_eq_zero.1 (Nat.le_zero.1 hlen)) hne
  | succ n ih =>
    intro b hlen hne hhead htail hnn
    cases b with
    | nil => exact absurd rfl hne
    | cons c rest =>
      have hc : c ≠ '\n' := fun h0 => hhead rest (by rw [h0])
      cases rest with
      | nil =>
        have hno : ('\n' : Char) ∉ [c] := by
          intro hm
          exact hc (List.mem_singleton.1 hm).symm
        rw [splitNL_of_no_nl hno]
        intro hm2
        exact (List.cons_ne_nil c []) (List.mem_singleton.1 hm2).symm
      | cons d rest2 =>
        by_cases hd : d = '\n'
        · subst hd
          have h1 : rest2 ≠ [] := fun h0 => htail [c] (by simp [h0])
          have h2 : ∀ t, rest2 ≠ '\n' :: t := fun t h0 => hnn ⟨[c], t, by simp [h0]⟩
          have h3 : ∀ ys, rest2 ≠ ys ++ ['\n'] := fun ys h0 =>
            htail (c :: '\n' :: ys) (by simp [h0])
          have h4 : ¬ hasNN rest2 := by
            intro hx
            obtain ⟨l1, l2, h0⟩ := hx
            exact hnn ⟨c :: '\n' :: l1, l2, by simp [h0]⟩
          have hlen2 : rest2.length ≤ n := by
            simp only [List.length_cons] at hlen
            omega
          have hrec := ih rest2 hlen2 h1 h2 h3 h4
          rw [splitNL_cons_other hc, splitNL_cons_nl]
          simp only [List.headI_cons, List.tail_cons]
          intro hm
          rcases List.mem_cons.1 hm with h0 | h0
          · exact (List.cons_ne_nil c []) h0.symm
          · exact hrec h0
        · have h1 : (d :: rest2) ≠ [] := List.cons_ne_nil d rest2
          have h2 : ∀ t, (d :: rest2) ≠ '\n' :: t := by
            intro t h0
            injection h0 with h01 h02
            exact hd h01
          have h3 : ∀ ys, (d :: rest2) ≠ ys ++ ['\n'] := fun ys h0 =>
            htail (c :: ys) (by simp [h0])
          have h4 : ¬ hasNN (d :: rest2) := by
            intro hx
            obtain ⟨l1, l2, h0⟩ := hx
            exact hnn ⟨c :: l1, l2, by simp [h0]⟩
          have hlen2 : (d :: rest2).length ≤ n := by
            simp only [List.length_cons] at hlen ⊢
            omega
          have hrec := ih (d :: rest2) hlen2 h1 h2 h3 h4
          rw [splitNL_cons_other hc]
          intro hm
          rcases List.mem_cons.1 hm with h0 | h0
          · exact (List.cons_ne_nil c _) h0.symm
          · exact hrec (List.mem_of_mem_tail h0)

theorem emitted_block_clean {acc : Chars} (hne : acc ≠ [])
    (hT : ∀ ys e, acc = ys ++ [e] → e ≠ '\n')
    (hS : ∀ t, acc ≠ '\n' :: t)
    (hN : ¬ hasNN acc) :
    [] ∉ splitNL acc.reverse := by
  apply splitNL_no_empty acc.reverse.length acc.reverse le_rfl
  · simpa using hne
  · intro t h0
    have h1 : acc = t.reverse ++ ['\n'] := by
      rw [← List.reverse_reverse acc, h0, List.reverse_cons]
    exact hT t.reverse '\n' h1 rfl
  · intro ys h0
    have h1 : acc = '\n' :: ys.reverse := by
      rw [← List.reverse_reverse acc, h0]
      simp
    exact hS ys.reverse h1
  · intro h0
    exact hN (hasNN_reverse h0)

theorem splitF_blocks_clean :
    ∀ (fuel : Nat) (acc s : Chars), s.length < fuel →
      (∀ ys e, s = ys ++ [e] → pySpace e = false) →
      (acc = [] → ∀ c t, s = c :: t → c ≠ '\n') →
      (∀ ys e, acc = ys ++ [e] → e ≠ '\n') →
      (∀ t, acc = '\n' :: t → ∀ c u, s = c :: u → c ≠ '\n') →
      (s = [] → ∀ t, acc ≠ '\n' :: t) →
      ¬ hasNN acc →
      ∀ b ∈ splitF fuel acc s, b = [] ∨ [] ∉ splitNL b := by
  intro fuel
  induction fuel with
  | zero =>
    intro acc s hlen
    exact absurd hlen (Nat.not_lt_zero _)
  | succ f ih =>
    intro acc s hlen hW hU hT hR hS hN
    cases s with
    | nil =>
      intro b hb
      rw [splitF_nil, List.mem_singleton] at hb
      subst hb
      by_cases hacc : acc = []
      · exact Or.inl (by rw [hacc]; rfl)
      · exact Or.inr (emitted_block_clean hacc hT (hS rfl) hN)
    | cons c rest =>
      have hlen1 : rest.length < f := by
        rw [List.length_cons] at hlen
        omega
      cases hsep : sepMatch (c :: rest) with
      | some r =>
        have hc : c = '\n' := by
          obtain ⟨rest2, after2, hs2, -, -⟩ := sepMatch_some_spec hsep
          injection hs2 with h1 h2
        intro b hb
        rw [splitF_cons_sep f acc hsep, List.mem_cons] at hb
        rcases hb with hb | hb
        · subst hb
          by_cases hacc : acc = []
          · exact Or.inl (by rw [hacc]; rfl)
          · refine Or.inr (emitted_block_clean hacc hT ?_ hN)
            intro t h0
            exact (hR t h0 c rest rfl) hc
        · have hrlen : r.length < f := by
            have h1 := sepMatch_length hsep
            rw [List.length_cons] at h1
            omega
          refine ih [] r hrlen (sepMatch_some_last hsep hW) ?_ ?_ ?_ ?_ hasNN_nil b hb
          · intro h0 c1 t1 h1
            exact sepMatch_some_head hsep c1 t1 h1
          · intro ys e h0
            simp at h0
          · intro t h0
            simp at h0
          · intro h0 t h1
            simp at h1
      | none =>
        intro b hb
        rw [splitF_cons_nosep f acc hsep] at hb
        refine ih (c :: acc) rest hlen1 ?_ ?_ ?_ ?_ ?_ ?_ b hb
        · intro ys e h0
          exact hW (c :: ys) e (by simp [h0])
        · intro h0
          simp at h0
        · intro ys e h0
          cases ys with
          | nil =>
            rw [List.nil_append] at h0
            injection h0 with h1 h2
            rw [← h1]
            exact hU h2 c rest rfl
          | cons y ys2 =>
            rw [List.cons_append] at h0
            injection h0 with h1 h2
            exact hT ys2 e h2
        · intro t h0 c1 u h1
          injection h0 with h1c h2c
          intro hc1
          have hsep2 : sepMatch ('\n' :: rest) = none := by
            rw [← h1c]
            exact hsep
          exact sepMatch_none_head_nl hsep2 u (by rw [h1, hc1])
        · intro h0 t h1
          subst h0
          injection h1 with h1c h2c
          have hw := hW [] c rfl
          rw [h1c] at hw
          exact absurd hw (by decide)
        · intro hNN2
          rcases hasNN_cons hNN2 with ⟨hc0, t, ht⟩ | h0
          · exact (hR t ht c rest rfl) hc0
          · exact hN h0

theorem reSplitBlank_strip_clean (s : Chars) :
    ∀ b ∈ reSplitBlank (pyStrip s), b = [] ∨ [] ∉ splitNL b := by
  intro b hb
  unfold reSplitBlank at hb
  refine splitF_blocks_clean _ [] (pyStrip s) (by omega) ?_ ?_ ?_ ?_ ?_ hasNN_nil b hb
  · intro ys e h0
    exact pyStrip_last_false h0
  · intro h0 c t h1 hc
    have h2 := pyStrip_head_false h1
    rw [hc] at h2
    exact absurd h2 (by decide)
  · intro ys e h0
    simp at h0
  · intro t h0
    simp at h0
  · intro h0 t h1
    simp at h1

theorem processBlock_none_iff {b : Chars} (h : b = [] ∨ [] ∉ splitNL b) :
    (processBlock b = none
      ↔ ((splitNL b).filter (fun l => !l.isEmpty)).length < 2) := by
  rcases h with h | h
  · subst h
    constructor
    · intro h0
      decide
    · intro h0
      rfl
  · have hfil : (splitNL b).filter (fun l => !l.isEmpty) = splitNL b := by
      apply List.filter_eq_self.2
      intro l hl
      cases l with
      | nil => exact absurd hl h
      | cons x xs => rfl
    rw [hfil]
    cases hsb : splitNL b with
    | nil => exact absurd hsb (splitNL_ne_nil b)
    | cons l0 rest0 =>
      cases rest0 with
      | nil =>
        have hpb : processBlock b = none := by
          unfold processBlock
          rw [hsb]
        constructor
        · intro h0
          simp
        · intro h0
          exact hpb
      | cons l1 rest =>
        have hpb := processBlock_eq_of_splitNL hsb
        constructor
        · intro h0
          rw [hpb] at h0
          by_cases hig : pyIsDigit (pyStrip l0)
          · rw [if_pos hig] at h0
            exact Option.noConfusion h0
          · rw [if_neg hig] at h0
            exact Option.noConfusion h0
        · intro h0
          exfalso
          simp only [List.length_cons] at h0
          omega

theorem intPadZeros_len2 {z : ℤ} (h0 : 0 ≤ z) (h : z < 100) :
    (intPadZeros 2 z).length = 2 := by
  rw [intPadZeros_length h0]
  have h1 : z.toNat < 100 := by omega
  exact max_eq_left (natDigits_length_le_two h1)

theorem intPadZeros_len3 {z : ℤ} (h0 : 0 ≤ z) (h : z < 1000) :
    (intPadZeros 3 z).length = 3 := by
  rw [intPadZeros_length h0]
  have h1 : z.toNat < 1000 := by omega
  exact max_eq_left (natDigits_length_le_three h1)


/-! ## Claims -/

/-- C1 (amended).  For every nonempty sequence of segments with
non-negative, non-decreasing `start ≤ end` times whose stripped text
contains no newline and no carriage-return character, parsing the
serializer's output and re-serializing reproduces that output
byte-for-byte: in particular the timestamp lines are byte-identical and
the text is preserved.  (Without the text restriction the round trip
loses text; see the counterexample.) -/
theorem c1_roundtrip_amended (segs : List Seg) (hne : segs ≠ [])
    (hval : ∀ s ∈ segs, 0 ≤ s.start ∧ s.start ≤ s.stop)
    (hmono : segs.Chain' fun a b => a.start ≤ b.start)
    (hnl : ∀ s ∈ segs, '\n' ∉ pyStrip s.text)
    (hcr : ∀ s ∈ segs, '\r' ∉ pyStrip s.text) :
    (parse_srt (asr_write_srt segs)).map Prod.fst = segs.map timeLine
      ∧ write_srt (parse_srt (asr_write_srt segs)) = asr_write_srt segs := by
  have hparse : parse_srt (asr_write_srt segs) = segs.map segEntry :=
    parse_asrWrite hne hnl hcr
  constructor
  · rw [hparse, List.map_map]
    exact List.map_congr_left fun s _ => rfl
  · rw [hparse]
    show write_srt (segs.map segEntry) = asr_write_srt segs
    unfold write_srt asr_write_srt
    exact congrArg String.mk (write_segEntries segs)

/-- Witness for C1 at a concrete one-segment input. -/
theorem c1_roundtrip_amended_witness :
    (parse_srt (asr_write_srt [⟨0, 1, "Hello".data⟩])).map Prod.fst
        = [Seg.mk 0 1 "Hello".data].map timeLine
      ∧ write_srt (parse_srt (asr_write_srt [⟨0, 1, "Hello".data⟩]))
        = asr_write_srt [⟨0, 1, "Hello".data⟩] :=
  c1_roundtrip_amended [⟨0, 1, "Hello".data⟩] (by simp)
    (by
      intro s hs
      rw [List.mem_singleton] at hs
      subst hs
      exact ⟨by norm_num, by norm_num⟩)
    (by simp)
    (by
      intro s hs
      rw [List.mem_singleton] at hs
      subst hs
      decide)
    (by
      intro s hs
      rw [List.mem_singleton] at hs
      subst hs
      decide)

/-- Counterexample to C1 as stated: a single valid-time segment whose
text contains a blank line.  The serialized output contains the letter
`b` but the reserialized round trip does not, so the text is not
preserved under any whitespace normalization (and the timestamp-line
clause alone also fails to make the claim true, since the claim requires
both). -/
theorem c1_counterexample :
    (∀ s ∈ [Seg.mk 0 0 "a\n\nb".data], 0 ≤ s.start ∧ s.start ≤ s.stop)
      ∧ 'b' ∈ (asr_write_srt [Seg.mk 0 0 "a\n\nb".data]).data
      ∧ 'b' ∉ (write_srt (parse_srt (asr_write_srt [Seg.mk 0 0 "a\n\nb".data]))).data
      ∧ write_srt (parse_srt (asr_write_srt [Seg.mk 0 0 "a\n\nb".data]))
          ≠ asr_write_srt [Seg.mk 0 0 "a\n\nb".data] := by
  refine ⟨?_, by decide, by decide, by decide⟩
  intro s hs
  rw [List.mem_singleton] at hs
  subst hs
  exact ⟨le_refl 0, le_refl 0⟩

/-- C2.  In the reparse-translate pipeline, every output entry carries
the same timestamp line verbatim as the corresponding input entry, the
entries appear in the same relative order (the output is a positionwise
map of the input), and only the text lines are replaced. -/
theorem c2_reparse_frame (text : String) (tr : Chars → Chars) :
    (translateEntries tr (parse_srt text)).map Prod.fst
        = (parse_srt text).map Prod.fst
      ∧ (translateEntries tr (parse_srt text)).length = (parse_srt text).length
      ∧ translateEntries tr (parse_srt text)
          = (parse_srt text).map fun e => (e.1, translateBody tr e.2) := by
  have key : ∀ es : List Entry,
      translateEntries tr es = es.map fun e => (e.1, translateBody tr e.2) := by
    intro es
    induction es with
    | nil => rfl
    | cons e t ih =>
      cases e
      simp [translateEntries, ih]
  refine ⟨?_, ?_, key _⟩
  · rw [key, List.map_map]
    exact List.map_congr_left fun e _ => rfl
  · rw [key]
    simp

/-- C3.  The serializer writes indices exactly `1..N` in order for any
input sequence of length `N`, independently of whatever indices a
previously parsed file contained (parsed entries carry no index at
all). -/
theorem c3_index_regeneration (entries : List Entry) :
    (enumFrom 1 entries).map Prod.fst = List.range' 1 entries.length
      ∧ writeChars entries
          = ((enumFrom 1 entries).map fun p => renderEntry p.1 p.2).flatten
      ∧ (∀ text : String,
          (enumFrom 1 (parse_srt text)).map Prod.fst
            = List.range' 1 (parse_srt text).length)
      ∧ (∀ segs : List Seg,
          (enumFrom 1 segs).map Prod.fst = List.range' 1 segs.length) :=
  ⟨enumFrom_map_fst 1 entries, rfl, fun _ => enumFrom_map_fst 1 _,
    fun segs => enumFrom_map_fst 1 segs⟩

/-- C5.  A block with a purely numeric leading line parses to the same
entry as the same block without it: the parser skips the numeric line and
takes the next line as the timestamp line; without a numeric leading
line, the first line is the timestamp line directly. -/
theorem c5_parser_index_tolerance (num ts : Chars) (body : List Chars)
    (hnum : pyIsDigit (pyStrip num) = true)
    (hts : pyIsDigit (pyStrip ts) = false)
    (hbody : body ≠ [])
    (hnumnl : '\n' ∉ num) (htsnl : '\n' ∉ ts) (hbnl : ∀ b ∈ body, '\n' ∉ b) :
    processBlock (joinNL (num :: ts :: body)) = some (ts, body)
      ∧ processBlock (joinNL (ts :: body)) = some (ts, body) := by
  obtain ⟨b0, body', rfl⟩ := List.exists_cons_of_ne_nil hbody
  have hsplit : splitNL (joinNL (ts :: b0 :: body')) = ts :: b0 :: body' := by
    apply splitNL_joinNL
    · intro l hl
      rw [List.mem_cons] at hl
      rcases hl with rfl | hl
      · exact htsnl
      · exact hbnl l hl
    · simp
  constructor
  · have hj : joinNL (num :: ts :: b0 :: body')
        = num ++ '\n' :: joinNL (ts :: b0 :: body') := rfl
    rw [processBlock_eq_of_splitNL (by rw [hj, splitNL_append_cons hnumnl, hsplit]),
      if_pos hnum]
  · rw [processBlock_eq_of_splitNL hsplit, if_neg (by rw [hts]; simp)]

/-- Witness for C5 at a concrete block. -/
theorem c5_parser_index_tolerance_witness :
    processBlock (joinNL ["1".data, "00:00:00,000 --> 00:00:01,000".data, "Hello".data])
        = some ("00:00:00,000 --> 00:00:01,000".data, ["Hello".data])
      ∧ processBlock (joinNL ["00:00:00,000 --> 00:00:01,000".data, "Hello".data])
        = some ("00:00:00,000 --> 00:00:01,000".data, ["Hello".data]) :=
  c5_parser_index_tolerance "1".data "00:00:00,000 --> 00:00:01,000".data ["Hello".data]
    (by decide) (by decide) (by decide) (by decide) (by decide)
    (by
      intro b hb
      rw [List.mem_singleton] at hb
      subst hb
      decide)

/-- C7.  A progress sample is emitted iff the known total duration is
strictly positive; the sample carries `ratio = clamp(end/total, 0, 1)`
(so never above `1`), `elapsed = max(now − start, 1/1000)` with the
positive epsilon `1/1000`, and `speed = end / elapsed`. -/
theorem c7_progress_telemetry (total now st e : ℚ) :
    ((progressSample total now st e).isSome ↔ 0 < total)
      ∧ (0 < total → progressSample total now st e
          = some (min (max (e / total) 0) 1, e, total, e / max (now - st) (1/1000)))
      ∧ (total ≤ 0 → progressSample total now st e = none)
      ∧ (0 < total → ∀ r p t sp, progressSample total now st e = some (r, p, t, sp) →
          r ≤ 1 ∧ 0 ≤ r)
      ∧ (0 : ℚ) < 1/1000 := by
  unfold progressSample
  by_cases h : 0 < total
  · rw [if_pos h]
    refine ⟨by simp [h], fun _ => rfl, fun hle => absurd h (not_lt.2 hle), ?_, by norm_num⟩
    intro _ r p t sp heq
    injection heq with h1
    simp only [Prod.mk.injEq] at h1
    obtain ⟨rfl, -, -, -⟩ := h1
    exact ⟨min_le_right _ _, le_min (le_max_right _ _) (by norm_num)⟩
  · rw [if_neg h]
    exact ⟨by simp [h], fun hpos => absurd hpos h, fun _ => rfl,
      fun hpos => absurd hpos h, by norm_num⟩

/-- Witness for C7: with total 10 and segment end 15 the emitted ratio is
clamped to 1; with total 0 nothing is emitted. -/
theorem c7_progress_telemetry_witness :
    progressSample 10 2 0 15 = some (1, 15, 10, 15/2)
      ∧ progressSample 0 2 0 15 = none := by
  have h := c7_progress_telemetry 10 2 0 15
  have h0 := c7_progress_telemetry 0 2 0 15
  constructor
  · rw [h.2.1 (by norm_num)]
    norm_num
  · exact h0.2.2.1 (le_refl 0)

/-- C9 counterexample: the Serializer does not strip each text line; it
strips only the joined block.  For the entry with text lines
`"x "` and `" y"` the emitted file contains the line `"x "` with its
trailing space (and `" y"` with its leading space), though
`strip "x " ≠ "x "`. -/
theorem c9_counterexample :
    splitNL (writeChars [("00:00:00,000 --> 00:00:01,000".data, ["x ".data, " y".data])])
        = ["1".data, "00:00:00,000 --> 00:00:01,000".data, "x ".data, " y".data, [], []]
      ∧ pyStrip "x ".data ≠ "x ".data := by
  constructor
  · decide
  · decide

/-- C9 (amended).  At emission the Serializer strips the joined text
block as a whole: a single-line text is emitted stripped per-line, but in
a multi-line text the whitespace adjacent to interior line breaks is
preserved verbatim (only the leading whitespace of the first line and the
trailing whitespace of the last line are removed). -/
theorem c9_whole_block_strip (b1 b2 : Chars)
    (h1 : ∀ c t, b1 = c :: t → ¬ pySpace c)
    (h2 : ∀ ys d, b2 = ys ++ [d] → ¬ pySpace d)
    (hne1 : b1 ≠ []) (hne2 : b2 ≠ []) :
    (∀ b : Chars, pyStrip (joinNL [b]) = pyStrip b)
      ∧ pyStrip (joinNL [b1, b2]) = b1 ++ '\n' :: b2 := by
  constructor
  · intro b
    rw [joinNL_single]
  · have hj : joinNL [b1, b2] = b1 ++ '\n' :: b2 := rfl
    rw [hj]
    apply pyStrip_eq_self
    · intro c t hct
      obtain ⟨c1, t1, rfl⟩ := List.exists_cons_of_ne_nil hne1
      rw [List.cons_append] at hct
      injection hct with hc _
      exact hc ▸ h1 c1 t1 rfl
    · intro ys d hyd
      obtain ⟨d2, u2, hdu⟩ := List.exists_cons_of_ne_nil
        (show b2.reverse ≠ [] by simpa [List.reverse_eq_nil_iff] using hne2)
      have hb2 : b2 = u2.reverse ++ [d2] := by
        rw [← List.reverse_reverse b2, hdu]
        simp
      have hlast : b1 ++ '\n' :: b2 = (b1 ++ '\n' :: u2.reverse) ++ [d2] := by
        rw [hb2]
        simp
      rw [hlast] at hyd
      have := List.append_inj_right' hyd (by simp)
      injection this with hd _
      exact hd ▸ h2 u2.reverse d2 hb2

/-- Witness for the amended C9. -/
theorem c9_whole_block_strip_witness :
    (∀ b : Chars, pyStrip (joinNL [b]) = pyStrip b)
      ∧ pyStrip (joinNL ["x ".data, " y".data]) = "x ".data ++ '\n' :: " y".data :=
  c9_whole_block_strip "x ".data " y".data
    (by
      intro c t hct
      injection hct with hc _
      subst hc
      decide)
    (by
      intro ys d hyd
      have h1 : (some 'y' : Option Char) = some d := by
        rw [show (some 'y' : Option Char) = (" y".data).getLast? from rfl, hyd,
          List.getLast?_concat]
      injection h1 with h1
      rw [← h1]
      decide)
    (by decide) (by decide)

/-- C10.  A two-line block whose first line is purely numeric parses to
an entry with the second line as timestamp and no text lines, and the
serializer accepts such an entry, emitting index and timestamp followed
by a single empty text line and the blank separator. -/
theorem c10_zero_text_entries (l0 l1 : Chars)
    (hdig : pyIsDigit (pyStrip l0) = true) (h0 : '\n' ∉ l0) (h1 : '\n' ∉ l1) :
    processBlock (l0 ++ '\n' :: l1) = some (l1, [])
      ∧ writeChars [(l1, [])]
        = natDigits 1 ++ '\n' :: l1 ++ '\n' :: '\n' :: '\n' :: [] := by
  constructor
  · rw [processBlock_eq_of_splitNL (by rw [splitNL_append_cons h0, splitNL_of_no_nl h1]),
      if_pos hdig]
  · show renderEntry 1 (l1, []) ++ [] = _
    unfold renderEntry
    rw [joinNL_nil, pyStrip_nil]
    simp

/-- Witness for C10. -/
theorem c10_zero_text_entries_witness :
    processBlock ("7".data ++ '\n' :: "00:00:00,000 --> 00:00:01,000".data)
        = some ("00:00:00,000 --> 00:00:01,000".data, [])
      ∧ writeChars [("00:00:00,000 --> 00:00:01,000".data, [])]
        = natDigits 1 ++ '\n' :: "00:00:00,000 --> 00:00:01,000".data
            ++ '\n' :: '\n' :: '\n' :: [] :=
  c10_zero_text_entries "7".data "00:00:00,000 --> 00:00:01,000".data
    (by decide) (by decide) (by decide)

/-- C8.  In the reparse-translate pipeline the translator capability is
invoked exactly once per non-empty trimmed text line, in order, and a
line that is empty after trimming is retained as the empty string and
never passed to the translator. -/
theorem c8_empty_line_passthrough (tr : Chars → Chars) (entries : List Entry) :
    (translateEntriesT tr entries).1 = translateEntries tr entries
      ∧ (translateEntriesT tr entries).2
          = ((entries.map Prod.snd).flatten.map pyStrip).filter (fun l => l ≠ [])
      ∧ (∀ body : List Chars, (translateBodyT tr body).1 = translateBody tr body
          ∧ (translateBodyT tr body).2 = (body.map pyStrip).filter (fun l => l ≠ []))
      ∧ (∀ body : List Chars, ∀ i : Nat, ∀ h : i < body.length,
          pyStrip (body.get ⟨i, h⟩) = [] →
            (translateBody tr body).get ⟨i, by simpa [translateBody] using h⟩ = []) := by
  have hbody : ∀ body : List Chars, (translateBodyT tr body).1 = translateBody tr body
      ∧ (translateBodyT tr body).2 = (body.map pyStrip).filter (fun l => l ≠ []) := by
    intro body
    induction body with
    | nil => exact ⟨rfl, rfl⟩
    | cons line rest ih =>
      have ht : translateBodyT tr (line :: rest)
          = if pyStrip line = []
            then (([] : Chars) :: (translateBodyT tr rest).1, (translateBodyT tr rest).2)
            else (tr (pyStrip line) :: (translateBodyT tr rest).1,
                  pyStrip line :: (translateBodyT tr rest).2) := rfl
      have tb : translateBody tr (line :: rest)
          = (if pyStrip line = [] then [] else tr (pyStrip line))
              :: translateBody tr rest := rfl
      by_cases h : pyStrip line = []
      · rw [ht, if_pos h]
        constructor
        · show ([] : Chars) :: (translateBodyT tr rest).1 = _
          rw [tb, if_pos h, ih.1]
        · show (translateBodyT tr rest).2 = _
          rw [ih.2, List.map_cons, List.filter_cons, h]
          simp
      · rw [ht, if_neg h]
        constructor
        · show tr (pyStrip line) :: (translateBodyT tr rest).1 = _
          rw [tb, if_neg h, ih.1]
        · show pyStrip line :: (translateBodyT tr rest).2 = _
          rw [ih.2, List.map_cons, List.filter_cons]
          simp [h]
  refine ⟨?_, ?_, hbody, ?_⟩
  · induction entries with
    | nil => rfl
    | cons e rest ih =>
      cases e with
      | mk t body =>
        unfold translateEntriesT translateEntries
        show ((t, (translateBodyT tr body).1) :: (translateEntriesT tr rest).1, _).1 = _
        rw [show ((t, (translateBodyT tr body).1) :: (translateEntriesT tr rest).1, _).1
          = (t, (translateBodyT tr body).1) :: (translateEntriesT tr rest).1 from rfl]
        rw [(hbody body).1, ih]
  · induction entries with
    | nil => rfl
    | cons e rest ih =>
      cases e with
      | mk t body =>
        unfold translateEntriesT
        show (translateBodyT tr body).2 ++ (translateEntriesT tr rest).2 = _
        rw [(hbody body).2, ih, List.map_cons, List.flatten_cons, List.map_append,
          List.filter_append]
  · intro body i h hempty
    unfold translateBody
    rw [List.get_map]
    rw [show body.get ⟨i, by simpa using h⟩ = body.get ⟨i, h⟩ from rfl, hempty]
    rfl

/-- Witness for C8 at a concrete body with one blank and one real line. -/
theorem c8_empty_line_passthrough_witness :
    (translateBodyT (fun l => 'X' :: l) [" ".data, "hi".data]).2 = ["hi".data]
      ∧ (translateBody (fun l => 'X' :: l) [" ".data, "hi".data]).get ⟨0, by decide⟩ = [] := by
  have h := c8_empty_line_passthrough (fun l => 'X' :: l) [("t".data, [" ".data, "hi".data])]
  constructor
  · rw [(h.2.2.1 [" ".data, "hi".data]).2]
    decide
  · exact h.2.2.2 [" ".data, "hi".data] 0 (by decide) (by decide)

set_option maxRecDepth 8000 in
/-- Counterexample to C4 as stated: on the binary64 value actually
denoted by the Python literal `3661.2005`, `format_time` produces
`"01:01:01,200"`, not `"01:01:01,201"`; and on the binary64 value of
`0.0005` the code yields `",000"` where half-up millisecond rounding of
the same value yields `",001"`, so the rounding is not half-up. -/
theorem c4_counterexample :
    format_time double3661_2005 = "01:01:01,200"
      ∧ format_time double3661_2005 ≠ "01:01:01,201"
      ∧ format_time double0_0005 = "00:00:00,000"
      ∧ specHalfUpEncode double0_0005 = "00:00:00,001".data
      ∧ formatTimeChars double0_0005 ≠ specHalfUpEncode double0_0005 :=
  ⟨by decide, by decide, by decide, by decide, by decide⟩

set_option maxRecDepth 8000 in
/-- C4 (amended).  `format_time` computes Python `round` — nearest
millisecond with ties to even — of the binary64 product
`seconds * 1000`, then formats as zero-padded `HH:MM:SS,mmm` with
unbounded hours: `encode 0 = "00:00:00,000"`; the binary64 value of
`3661.2005` encodes to `"01:01:01,200"`; the rounded millisecond count
is within `1/2` of the product; a half-millisecond tie rounds to the
even integer; and for every input of at least `100` hours the hours
field keeps all of its (at least three) digits while minutes, seconds
and milliseconds keep widths 2, 2 and 3. -/
theorem c4_codec_amended :
    format_time 0 = "00:00:00,000"
      ∧ format_time double3661_2005 = "01:01:01,200"
      ∧ (∀ q : ℚ, |((pyRound (dmul1000 q) : ℤ) : ℚ) - dmul1000 q| ≤ 1/2)
      ∧ (∀ z : ℤ, pyRound ((z : ℚ) + 1/2) = if z % 2 = 0 then z else z + 1)
      ∧ (∀ q : ℚ, 360000 ≤ q →
          intPadZeros 2 ((pyRound (dmul1000 q)).fdiv 3600000)
              = natDigits ((pyRound (dmul1000 q)).fdiv 3600000).toNat
            ∧ 3 ≤ (intPadZeros 2 ((pyRound (dmul1000 q)).fdiv 3600000)).length
            ∧ (intPadZeros 2 (((pyRound (dmul1000 q)).fmod 3600000).fdiv 60000)).length = 2
            ∧ (intPadZeros 2 (((pyRound (dmul1000 q)).fmod 60000).fdiv 1000)).length = 2
            ∧ (intPadZeros 3 ((pyRound (dmul1000 q)).fmod 1000)).length = 3
            ∧ formatTimeChars q =
                intPadZeros 2 ((pyRound (dmul1000 q)).fdiv 3600000)
                  ++ ':' :: intPadZeros 2 (((pyRound (dmul1000 q)).fmod 3600000).fdiv 60000)
                  ++ ':' :: intPadZeros 2 (((pyRound (dmul1000 q)).fmod 60000).fdiv 1000)
                  ++ ',' :: intPadZeros 3 ((pyRound (dmul1000 q)).fmod 1000)) := by
  refine ⟨by decide, by decide, fun q => pyRound_dist (dmul1000 q), pyRound_tie, ?_⟩
  intro q hq
  have hm := millis_ge_of_ge_360000 hq
  have hh : 100 ≤ (pyRound (dmul1000 q)).fdiv 3600000 := by
    rw [Int.fdiv_eq_ediv _ (by norm_num), Int.le_ediv_iff_mul_le (by norm_num)]
    omega
  have hh0 : (0:ℤ) ≤ (pyRound (dmul1000 q)).fdiv 3600000 := by omega
  have hh3 : 3 ≤ (natDigits ((pyRound (dmul1000 q)).fdiv 3600000).toNat).length :=
    natDigits_length_ge_three (by omega)
  have heq : intPadZeros 2 ((pyRound (dmul1000 q)).fdiv 3600000)
      = natDigits ((pyRound (dmul1000 q)).fdiv 3600000).toNat :=
    intPadZeros_eq_digits hh0 (by omega)
  have hmn0 : (0:ℤ) ≤ (pyRound (dmul1000 q)).fmod 3600000 :=
    Int.fmod_nonneg' _ (by norm_num)
  have hmn1 : (pyRound (dmul1000 q)).fmod 3600000 < 3600000 :=
    Int.fmod_lt_of_pos _ (by norm_num)
  have hmin0 : (0:ℤ) ≤ ((pyRound (dmul1000 q)).fmod 3600000).fdiv 60000 :=
    Int.fdiv_nonneg hmn0 (by norm_num)
  have hmin1 : ((pyRound (dmul1000 q)).fmod 3600000).fdiv 60000 < 60 := by
    rw [Int.fdiv_eq_ediv _ (by norm_num), Int.ediv_lt_iff_lt_mul (by norm_num)]
    omega
  have hsc2 : (0:ℤ) ≤ (pyRound (dmul1000 q)).fmod 60000 :=
    Int.fmod_nonneg' _ (by norm_num)
  have hsc3 : (pyRound (dmul1000 q)).fmod 60000 < 60000 :=
    Int.fmod_lt_of_pos _ (by norm_num)
  have hsc0 : (0:ℤ) ≤ ((pyRound (dmul1000 q)).fmod 60000).fdiv 1000 :=
    Int.fdiv_nonneg hsc2 (by norm_num)
  have hsc1 : ((pyRound (dmul1000 q)).fmod 60000).fdiv 1000 < 60 := by
    rw [Int.fdiv_eq_ediv _ (by norm_num), Int.ediv_lt_iff_lt_mul (by norm_num)]
    omega
  have hms0 : (0:ℤ) ≤ (pyRound (dmul1000 q)).fmod 1000 :=
    Int.fmod_nonneg' _ (by norm_num)
  have hms1 : (pyRound (dmul1000 q)).fmod 1000 < 1000 :=
    Int.fmod_lt_of_pos _ (by norm_num)
  exact ⟨heq, by rw [heq]; exact hh3,
    intPadZeros_len2 hmin0 (by omega),
    intPadZeros_len2 hsc0 (by omega),
    intPadZeros_len3 hms0 hms1,
    rfl⟩

/-- Witness for C4 (amended) at the concrete input `360001` seconds,
just over 100 hours. -/
theorem c4_codec_amended_witness :
    (360000 : ℚ) ≤ 360001
      ∧ (intPadZeros 2 (((pyRound (dmul1000 360001)).fmod 3600000).fdiv 60000)).length
          = 2 :=
  ⟨by norm_num, (c4_codec_amended.2.2.2.2 360001 (by norm_num)).2.2.1⟩

/-- C6.  `parse_srt` splits its carriage-return-normalized, stripped
input on blank-line separators and keeps, in file order, exactly the
blocks with at least two lines; on every block the splitter can
produce, fewer than two lines coincides with fewer than two non-empty
lines, so malformed blocks are discarded silently: the empty input
parses to the empty list, and a trailing one-line block is dropped
without error while the preceding well-formed entries are kept. -/
theorem c6_malformed_leniency :
    (∀ text : Chars, ∀ b ∈ reSplitBlank (pyStrip (text.filter (fun c => c ≠ '\r'))),
        (processBlock b = none
          ↔ ((splitNL b).filter (fun l => !l.isEmpty)).length < 2))
      ∧ (∀ text : String,
          parse_srt text
            = (reSplitBlank (pyStrip (text.data.filter (fun c => c ≠ '\r')))).filterMap
                processBlock)
      ∧ parse_srt "" = []
      ∧ parse_srt "1\n00:00:00,000 --> 00:00:01,000\nHello\n\nStray"
          = [("00:00:00,000 --> 00:00:01,000".data, ["Hello".data])] := by
  refine ⟨?_, fun _ => rfl, by decide, by decide⟩
  intro text b hb
  exact processBlock_none_iff (reSplitBlank_strip_clean _ b hb)

/-- Witness for C6 on the concrete block produced from the input `"x"`. -/
theorem c6_malformed_leniency_witness :
    "x".data ∈ reSplitBlank (pyStrip (("x".data).filter (fun c => c ≠ '\r')))
      ∧ (processBlock "x".data = none
          ↔ ((splitNL "x".data).filter (fun l => !l.isEmpty)).length < 2) :=
  ⟨by decide, c6_malformed_leniency.1 "x".data "x".data (by decide)⟩


end DubSub
